import Mathlib

/-!
Verification of the `shamir` package: Shamir secret sharing over GF(2^16).

The Go source keeps the field abstract behind a capability `gf65536.Field`
with operations `Add`, `Mul`, `Inv`; we mirror that with the `GFOps`
structure.  The word-level algorithms (`split`, `combine`, `gauss` and their
helpers) are translated function by function from the source; random input
is modelled as the list of 16-bit words the code reads from its random
source, and failure paths return explicit error values.  The byte-level
`Dealer` wrapper is modelled over `Nat` bytes and words, including the
run-time panic that Go raises when a slice is constructed with a negative
length.
-/

namespace Shamir

set_option maxRecDepth 100000

/-- The error conditions the package can return. -/
inductive GoErr : Type where
  | thresholdGtN
  | thresholdLt1
  | nLt1
  | nilSecret
  | randErr
  | singular
  | nilShares
  | inconsistentLen
  | oddSecret
  | decodeShort
deriving DecidableEq, Repr

/-- Outcome of a Go call: a value, a returned error, or a run-time crash
(panic). -/
inductive GoResult (α : Type) : Type where
  | ok (a : α)
  | err (e : GoErr)
  | crashed
deriving DecidableEq, Repr

instance {ε α : Type} [DecidableEq ε] [DecidableEq α] : DecidableEq (Except ε α) :=
  fun x y =>
    match x, y with
    | .ok a, .ok b =>
      if h : a = b then isTrue (by rw [h]) else isFalse (by intro hc; cases hc; exact h rfl)
    | .error e, .error e2 =>
      if h : e = e2 then isTrue (by rw [h]) else isFalse (by intro hc; cases hc; exact h rfl)
    | .ok _, .error _ => isFalse (by intro hc; cases hc)
    | .error _, .ok _ => isFalse (by intro hc; cases hc)

/-- The field capability consumed by the core, mirroring `gf65536.Field`'s
`Add`, `Mul`, `Inv` methods. -/
structure GFOps (K : Type) where
  add : K → K → K
  mul : K → K → K
  inv : K → K

/-- The capability induced by an actual Lean field. -/
def fieldOps (K : Type) [Field K] : GFOps K :=
  ⟨fun a b => a + b, fun a b => a * b, fun a => a⁻¹⟩

variable {K : Type}

/-- Helper for `pows`: emits `p, p*x, p*x^2, ...` (`n` entries). -/
def powsFrom (f : GFOps K) (x : K) : Nat → K → List K
  | 0, _ => []
  | n + 1, p => p :: powsFrom f x n (f.mul p x)

/-- `pows` from the source: the list `[x^0, x^1, ..., x^(n-1)]`. -/
def pows (f : GFOps K) [One K] (n : Nat) (x : K) : List K :=
  powsFrom f x n 1

/-- Loop of `evalPoly`: accumulates `r + p*c` while advancing the power `p`. -/
def evalPolyAux (f : GFOps K) (x : K) : List K → K → K → K
  | [], _, r => r
  | c :: cs, p, r => evalPolyAux f x cs (f.mul p x) (f.add r (f.mul p c))

/-- `evalPoly` from the source: Horner-style evaluation of `coeff` at `x`. -/
def evalPoly (f : GFOps K) [Zero K] [One K] (coeff : List K) (x : K) : K :=
  evalPolyAux f x coeff 1 0

/-- `scalePoly` from the source: multiply every coefficient by `x`. -/
def scalePoly (f : GFOps K) (coeff : List K) (x : K) : List K :=
  coeff.map fun c => f.mul c x

/-- `addPoly` from the source: pointwise `Add` (rows always have equal
length at every call site). -/
def addPoly (f : GFOps K) (a b : List K) : List K :=
  List.zipWith f.add a b

/-- Row `i` of a matrix held as a list of rows. -/
def gRow (m : List (List K)) (i : Nat) : List K := m.getD i []

/-- Entry `(i, j)` of a matrix held as a list of rows. -/
def gEl [Zero K] (m : List (List K)) (i j : Nat) : K := (gRow m i).getD j 0

/-- `findNonzero` from the source: index of the first row `i ≥ r` whose
entry in column `r` is non-zero, `-1` if there is none. -/
def findNonzero [Zero K] [DecidableEq K] (m : List (List K)) (r : Nat) : Int :=
  match (List.range m.length).find? (fun i => decide (r ≤ i) && decide (gEl m i r ≠ 0)) with
  | some i => (i : Int)
  | none => -1

/-- Swap rows `r` and `i` (the parallel assignment in the source). -/
def swapRows (m : List (List K)) (r i : Nat) : List (List K) :=
  (m.set r (gRow m i)).set i (gRow m r)

/-- Index-aware map used to express the row loops of `gauss`. -/
def mapIdxA (g : Nat → α → β) : Nat → List α → List β
  | _, [] => []
  | s, a :: as => g s a :: mapIdxA g (s + 1) as

/-- The scaling loop of `gauss`: every row `i ≥ r` with a non-zero entry in
column `r` is scaled by the inverse of that entry. -/
def scaleStep [Zero K] [DecidableEq K] (f : GFOps K) (r : Nat) (m : List (List K)) :
    List (List K) :=
  mapIdxA (fun i row => if r ≤ i ∧ row.getD r 0 ≠ 0
    then scalePoly f row (f.inv (row.getD r 0)) else row) 0 m

/-- The elimination loop of `gauss`: the pivot row is added to every row
`i > r` with a non-zero entry in column `r`. -/
def elimStep [Zero K] [DecidableEq K] (f : GFOps K) (r : Nat) (m : List (List K)) :
    List (List K) :=
  let rowr := gRow m r
  mapIdxA (fun i row => if r + 1 ≤ i ∧ row.getD r 0 ≠ 0
    then addPoly f row rowr else row) 0 m

/-- One iteration of the forward-elimination loop of `gauss` for pivot
column `r`: fix the pivot (swapping a row up if needed, failing if column
`r` is dead), then scale and eliminate. -/
def gaussStep [Zero K] [One K] [DecidableEq K] (f : GFOps K) (m : List (List K)) (r : Nat) :
    Except GoErr (List (List K)) :=
  let m1opt : Option (List (List K)) :=
    if gEl m r r = 0 then
      (let i := findNonzero m r
       if i = -1 then none else some (swapRows m r i.toNat))
    else some m
  match m1opt with
  | none => .error .singular
  | some m1 => .ok (elimStep f r (scaleStep f r m1))

/-- The forward-elimination loop of `gauss`, processing pivot columns
`r, r+1, ...` for `steps` iterations. -/
def gaussFwdAux [Zero K] [One K] [DecidableEq K] (f : GFOps K) :
    Nat → Nat → List (List K) → Except GoErr (List (List K))
  | 0, _, m => .ok m
  | steps + 1, r, m =>
    match gaussStep f m r with
    | .error e => .error e
    | .ok m2 => gaussFwdAux f steps (r + 1) m2

/-- The back-substitution loop of `gauss`: for `r = 1, 2, ...` scale row `r`
by `m[0][r]` and add it into row `0`. -/
def backSubAux [Zero K] (f : GFOps K) : Nat → Nat → List (List K) → List (List K)
  | 0, _, m => m
  | steps + 1, r, m =>
    let mr := scalePoly f (gRow m r) (gEl m 0 r)
    let m2 := (m.set r mr).set 0 (addPoly f (gRow m 0) mr)
    backSubAux f steps (r + 1) m2

/-- Back substitution restricted to row `0`, as in the source. -/
def backSub [Zero K] (f : GFOps K) (m : List (List K)) : List (List K) :=
  backSubAux f (m.length - 1) 1 m

/-- `gauss` from the source: forward elimination to upper-triangular form,
then back substitution into row `0`; fails with a singular-matrix error when
a pivot column is dead. -/
def gauss [Zero K] [One K] [DecidableEq K] (f : GFOps K) (m : List (List K)) :
    Except GoErr (List (List K)) :=
  match gaussFwdAux f m.length 0 m with
  | .error e => .error e
  | .ok m2 => .ok (backSub f m2)

/-- `combineSingle` from the source: build the `k × (k+1)` system
`[x_i^0, ..., x_i^(k-1) | y_i]`, run `gauss`, and read the recovered
constant term from row `0`. -/
def combineSingle [Zero K] [One K] [DecidableEq K] (f : GFOps K) (xvals yvals : List K) :
    Except GoErr K :=
  let m := List.zipWith (fun x y => pows f xvals.length x ++ [y]) xvals yvals
  match gauss f m with
  | .error e => .error e
  | .ok m2 => .ok (gEl m2 0 xvals.length)

/-- The per-column loop of `combine`: recover one secret word per column
index in `cs`. -/
def combineLoop [Zero K] [One K] [DecidableEq K] (f : GFOps K) (shares : List (List K))
    (xvals : List K) : List Nat → Except GoErr (List K)
  | [] => .ok []
  | c :: cs =>
    match combineSingle f xvals (shares.map fun s => s.getD c 0) with
    | .error e => .error e
    | .ok sec =>
      match combineLoop f shares xvals cs with
      | .error e => .error e
      | .ok rest => .ok (sec :: rest)

/-- `combine` from the source (word level).  Checks the share list is
non-empty and all shares have the first share's length, then recovers the
secret column by column.  When the first share has no words at all the Go
code computes `secretLen = -1` and crashes on `make([]uint16, -1)`; the
model returns `crashed` there. -/
def combine [Zero K] [One K] [DecidableEq K] (f : GFOps K) (shares : List (List K)) :
    GoResult (List K) :=
  match shares with
  | [] => .err .nilShares
  | s0 :: rest =>
    if rest.any (fun s => s.length ≠ s0.length) then .err .inconsistentLen
    else if s0.length = 0 then .crashed
    else
      let xvals := (s0 :: rest).map fun s => s.getD 0 0
      match combineLoop f (s0 :: rest) xvals (List.range' 1 (s0.length - 1)) with
      | .error e => .err e
      | .ok secrets => .ok secrets

/-- Loop of `distinctXes`: draw from the stream, rejecting zero and
already-seen values, until `need` more values are collected; fails when the
random stream is exhausted first. -/
def distinctXesAux [Zero K] [DecidableEq K] :
    List K → Nat → List K → Option (List K × List K)
  | s, 0, acc => some (acc, s)
  | [], _ + 1, _ => none
  | x :: rest, need + 1, acc =>
    if x = 0 ∨ x ∈ acc then distinctXesAux rest (need + 1) acc
    else distinctXesAux rest need (acc ++ [x])

/-- `distinctXes` from the source: `n` pairwise-distinct non-zero draws,
returned together with the unread remainder of the stream. -/
def distinctXes [Zero K] [DecidableEq K] (stream : List K) (n : Nat) :
    Option (List K × List K) :=
  distinctXesAux stream n []

/-- `splitSingle` from the source: draw `threshold - 1` random coefficients
(after the constant term `sec`) and evaluate the polynomial at every
x-coordinate; fails when the stream cannot supply the coefficients. -/
def splitSingle [Zero K] [One K] (f : GFOps K) (stream : List K) (threshold : Nat)
    (xvals : List K) (sec : K) : Option (List K × List K) :=
  if threshold - 1 ≤ stream.length then
    some (xvals.map (evalPoly f (sec :: stream.take (threshold - 1))),
      stream.drop (threshold - 1))
  else none

/-- The per-word loop of `split`: one `splitSingle` per secret word,
threading the random stream. -/
def splitLoop [Zero K] [One K] (f : GFOps K) (threshold : Nat) (xvals : List K) :
    List K → List K → Option (List (List K))
  | [], _ => some []
  | w :: ws, stream =>
    match splitSingle f stream threshold xvals w with
    | none => none
    | some (z, rest) =>
      match splitLoop f threshold xvals ws rest with
      | none => none
      | some zs => some (z :: zs)

/-- Transpose the per-word evaluation vectors into per-share records, each
prefixed with its x-coordinate (the share-assembly loops of `split`). -/
def assembleShares [Zero K] (xvals : List K) (zs : List (List K)) : List (List K) :=
  mapIdxA (fun j x => x :: zs.map fun z => z.getD j 0) 0 xvals

/-- `split` from the source (word level): validation in source order, then
distinct x-coordinates, then one polynomial per secret word. -/
def split [Zero K] [One K] [DecidableEq K] (f : GFOps K) (random : List K)
    (threshold n : Int) (secret : List K) : Except GoErr (List (List K)) :=
  if threshold > n then .error .thresholdGtN
  else if threshold < 1 then .error .thresholdLt1
  else if n < 1 then .error .nLt1
  else if secret.length = 0 then .error .nilSecret
  else
    match distinctXes random n.toNat with
    | none => .error .randErr
    | some (xvals, rest) =>
      match splitLoop f threshold.toNat xvals secret rest with
      | none => .error .randErr
      | some zs => .ok (assembleShares xvals zs)

/-!  ### The concrete default field

Modelled from the spec: the field arithmetic itself lives in the external
collaborator `gf65536` (not part of this repository); the spec describes it
as GF(2^16) arithmetic for a fixed irreducible modulus, with a default
instance.  The modulus `x^16 + x^5 + x^3 + x + 1` (`0x1002B`) is the unique
degree-16 modulus reproducing the concrete split/combine vectors recorded in
the repository's tests.  -/

/-- One shift-and-add step loop for carry-less multiplication modulo `P`. -/
def gfMulAux (P : Nat) : Nat → Nat → Nat → Nat → Nat
  | 0, _, _, acc => acc
  | fuel + 1, a, b, acc =>
    let acc2 := if b % 2 = 1 then acc ^^^ a else acc
    let a2 := a * 2
    let a3 := if 65536 ≤ a2 then a2 ^^^ P else a2
    gfMulAux P fuel a3 (b / 2) acc2

/-- Multiplication in GF(2^16) with modulus `P` (16-bit operands). -/
def gfMul (P a b : Nat) : Nat := gfMulAux P 16 a b 0

/-- Multiplicative inverse in GF(2^16): `a^(2^16 - 2)`, computed as the
product of the repeated squares `a^2, a^4, ..., a^(2^15)`. -/
def gfInv (P a : Nat) : Nat :=
  let s1 := gfMul P a a
  let s2 := gfMul P s1 s1
  let s3 := gfMul P s2 s2
  let s4 := gfMul P s3 s3
  let s5 := gfMul P s4 s4
  let s6 := gfMul P s5 s5
  let s7 := gfMul P s6 s6
  let s8 := gfMul P s7 s7
  let s9 := gfMul P s8 s8
  let s10 := gfMul P s9 s9
  let s11 := gfMul P s10 s10
  let s12 := gfMul P s11 s11
  let s13 := gfMul P s12 s12
  let s14 := gfMul P s13 s13
  let s15 := gfMul P s14 s14
  gfMul P s1 (gfMul P s2 (gfMul P s3 (gfMul P s4 (gfMul P s5 (gfMul P s6
    (gfMul P s7 (gfMul P s8 (gfMul P s9 (gfMul P s10 (gfMul P s11
    (gfMul P s12 (gfMul P s13 (gfMul P s14 s15)))))))))))))

/-- The `GFOps` capability of the concrete GF(2^16) field with modulus `P`
(addition is XOR). -/
def mkGF (P : Nat) : GFOps Nat := ⟨fun a b => a ^^^ b, gfMul P, gfInv P⟩

/-- The default field modulus (`gf65536.Default`). -/
def defaultField : Nat := 0x1002B

/-!  ### The byte-level Dealer -/

/-- A byte order for 16-bit words (`binary.BigEndian` / `binary.LittleEndian`). -/
inductive BOrder : Type where
  | be
  | le
deriving DecidableEq, Repr

/-- Combine two bytes into a 16-bit word in the given byte order. -/
def wordOfBytes : BOrder → Nat → Nat → Nat
  | .be, b0, b1 => 256 * b0 + b1
  | .le, b0, b1 => 256 * b1 + b0

/-- Decode a byte buffer into 16-bit words (`binary.Decode`). -/
def bytesToWords (bo : BOrder) : List Nat → List Nat
  | b0 :: b1 :: rest => wordOfBytes bo b0 b1 :: bytesToWords bo rest
  | _ => []

/-- Encode one 16-bit word as two bytes in the given byte order. -/
def wordToBytes (bo : BOrder) (w : Nat) : List Nat :=
  match bo with
  | .be => [w / 256 % 256, w % 256]
  | .le => [w % 256, w / 256 % 256]

/-- Encode a word sequence as a byte buffer (`binary.Encode`). -/
def wordsToBytes (bo : BOrder) (ws : List Nat) : List Nat :=
  (ws.map (wordToBytes bo)).flatten

/-- The placeholder contents of the default random source
(`crypto/rand.Reader` supplies external entropy; the model only needs a
distinguished value). -/
def defaultRandSrc : List Nat := []

/-- The `Dealer` configuration: a field (0 meaning unset, the value being
the field modulus), an optional random byte stream, and an optional byte
order. -/
structure Dealer where
  F : Nat
  Rand : Option (List Nat)
  ByteOrder : Option BOrder
deriving DecidableEq, Repr

/-- `Dealer.init` from the source: fill unset fields with the defaults.
Mirrors the in-place mutation through the pointer receiver. -/
def Dealer.init (d : Dealer) : Dealer :=
  { F := if d.F = 0 then defaultField else d.F
    Rand := match d.Rand with
      | none => some defaultRandSrc
      | some s => some s
    ByteOrder := match d.ByteOrder with
      | none => some .be
      | some b => some b }

/-- `Dealer.Split` from the source: default the configuration, reject odd
byte lengths, decode the secret into words, split, and re-encode each word
share as bytes.  The random stream is read word-wise in native (little)
endian order.  Returns the result together with the dealer as left by the
call (the receiver is mutated by `init`). -/
def Dealer.Split (d : Dealer) (threshold n : Int) (secret : List Nat) :
    GoResult (List (List Nat)) × Dealer :=
  let d2 := d.init
  let bo := d2.ByteOrder.getD .be
  if secret.length % 2 ≠ 0 then (.err .oddSecret, d2)
  else
    let secretWords := bytesToWords bo secret
    let stream := bytesToWords .le (d2.Rand.getD [])
    match split (mkGF d2.F) stream threshold n secretWords with
    | .error e => (.err e, d2)
    | .ok shares => (.ok (shares.map fun s => wordsToBytes bo s), d2)

/-- `Dealer.Combine` from the source: default the configuration, decode
every byte share into `len(shares[0])/2` words (failing when a share is too
short to supply them), combine, and re-encode the secret.  Returns the
result together with the dealer as left by the call. -/
def Dealer.Combine (d : Dealer) (shares : List (List Nat)) :
    GoResult (List Nat) × Dealer :=
  let d2 := d.init
  let bo := d2.ByteOrder.getD .be
  match shares with
  | [] => (.err .nilShares, d2)
  | s0 :: rest =>
    let wc := s0.length / 2
    if (s0 :: rest).any (fun s => s.length < 2 * wc) then (.err .decodeShort, d2)
    else
      let wordShares := (s0 :: rest).map fun s => bytesToWords bo (s.take (2 * wc))
      match combine (mkGF d2.F) wordShares with
      | .ok ws => (.ok (wordsToBytes bo ws), d2)
      | .err e => (.err e, d2)
      | .crashed => (.crashed, d2)

/-!  ### Verification-layer definitions -/

/-- The parameter-validation errors of `Split`. -/
def valErr (e : GoErr) : Prop :=
  e = .thresholdGtN ∨ e = .thresholdLt1 ∨ e = .nLt1 ∨ e = .nilSecret ∨ e = .oddSecret

/-- Well-formed `k × (k+1)` system held as a list of rows. -/
def WF (k : Nat) (m : List (List K)) : Prop :=
  m.length = k ∧ ∀ row ∈ m, row.length = k + 1

/-- Dot product of a row with a vector (the augmented entry of a row is
ignored because `zipWith` stops at the shorter list). -/
def dotv [Mul K] [AddCommMonoid K] (row v : List K) : K :=
  (List.zipWith (fun a b => a * b) row v).sum

/-- `v` solves every equation of the augmented system `m`. -/
def IsSol [Mul K] [AddCommMonoid K] [Zero K] (m : List (List K)) (v : List K) : Prop :=
  ∀ i, i < m.length → dotv (gRow m i) v = (gRow m i).getD v.length 0

/-- `v` is in the kernel of the coefficient part of `m`. -/
def IsKer [Mul K] [AddCommMonoid K] (m : List (List K)) (v : List K) : Prop :=
  ∀ i, i < m.length → dotv (gRow m i) v = 0

/-- State of forward elimination after clearing columns `< r`: unit
diagonal and zeros below it in the first `r` columns. -/
def Tri [Zero K] [One K] (m : List (List K)) (r : Nat) : Prop :=
  (∀ i j, j < i → i < r → gEl m i j = 0) ∧
  (∀ i, i < r → gEl m i i = 1) ∧
  (∀ i j, r ≤ i → j < r → gEl m i j = 0)

/-- Partial kernel vector `[v_(r-d), ..., v_r]` exhibited when forward
elimination dies in column `r`: `v_r = 1` and each earlier entry cancels
the tail of its row. -/
def kerList [Field K] (m : List (List K)) (r : Nat) : Nat → List K
  | 0 => [1]
  | d + 1 =>
    let prev := kerList m r d
    (-(List.zipWith (fun a b => a * b) ((gRow m (r - d - 1)).drop (r - d)) prev).sum) :: prev

/-- The full kernel witness: `[v_0, ..., v_r]` padded with zeros. -/
def kerVec [Field K] (m : List (List K)) (r k : Nat) : List K :=
  kerList m r r ++ List.replicate (k - (r + 1)) 0

/-- The polynomial with coefficient list `v`. -/
noncomputable def polyOf [Semiring K] : List K → Polynomial K
  | [] => 0
  | a :: as => Polynomial.C a + Polynomial.X * polyOf as

/-- The first `k` coefficients of a polynomial as a list. -/
noncomputable def coeffList [Semiring K] (p : Polynomial K) (k : Nat) : List K :=
  List.ofFn fun i : Fin k => p.coeff i

/-- The augmented Vandermonde system built by `combineSingle`. -/
def vanMat [One K] (f : GFOps K) (xvals yvals : List K) : List (List K) :=
  List.zipWith (fun x y => pows f xvals.length x ++ [y]) xvals yvals

/-- A concrete field capability over GF(2) with an executable inverse,
used to instantiate the abstract theorems. -/
def gf2Ops : GFOps (ZMod 2) :=
  ⟨fun a b => a + b, fun a b => a * b, fun x => x⟩

/-- A capability over the default GF(2^16) that returns garbage for the
undefined value `Inv 0`, used to witness that `Inv 0` is unreachable. -/
def mkGFAlt : GFOps Nat :=
  ⟨fun a b => a ^^^ b, gfMul defaultField,
    fun x => if x = 0 then 7 else gfInv defaultField x⟩

/-!  ### List and matrix infrastructure -/

theorem mapIdxA_length (g : Nat → α → β) (s : Nat) (l : List α) :
    (mapIdxA g s l).length = l.length := by
  induction l generalizing s with
  | nil => rfl
  | cons a as ih => simp [mapIdxA, ih]

theorem mapIdxA_getD (g : Nat → α → β) (s : Nat) (l : List α) (i : Nat) (d : β) (e : α)
    (h : i < l.length) :
    (mapIdxA g s l).getD i d = g (s + i) (l.getD i e) := by
  induction l generalizing s i with
  | nil => cases h
  | cons a as ih =>
    cases i with
    | zero => rfl
    | succ j =>
      have := ih (s + 1) j (by simpa using h)
      simpa [mapIdxA, Nat.add_assoc, Nat.add_comm 1 j] using this

theorem length_gRow_mem (m : List (List K)) (i : Nat) (h : i < m.length) :
    gRow m i ∈ m := by
  unfold gRow
  rw [List.getD_eq_getElem?_getD, List.getElem?_eq_getElem h]
  exact List.getElem_mem h

theorem gRow_eq_nil (m : List (List K)) (i : Nat) (h : m.length ≤ i) :
    gRow m i = [] := by
  unfold gRow
  rw [List.getD_eq_getElem?_getD, List.getElem?_eq_none h]
  rfl

theorem gRow_set (m : List (List K)) (r i : Nat) (x : List K) :
    gRow (m.set r x) i = if r = i ∧ r < m.length then x else gRow m i := by
  unfold gRow
  rw [List.getD_eq_getElem?_getD, List.getElem?_set, List.getD_eq_getElem?_getD]
  by_cases h : r = i
  · subst h
    by_cases h2 : r < m.length
    · simp [h2]
    · simp [h2, List.getElem?_eq_none (Nat.le_of_not_lt h2)]
  · simp [h]

theorem length_swapRows (m : List (List K)) (r i : Nat) :
    (swapRows m r i).length = m.length := by
  simp [swapRows]

theorem gRow_swapRows_left (m : List (List K)) (r i : Nat) (hi : i < m.length) :
    gRow (swapRows m r i) i = gRow m r := by
  unfold swapRows
  rw [gRow_set]
  simp [hi]

theorem gRow_swapRows_right (m : List (List K)) (r i : Nat) (hr : r < m.length)
    (hne : i ≠ r) : gRow (swapRows m r i) r = gRow m i := by
  unfold swapRows
  rw [gRow_set, gRow_set]
  simp only [List.length_set]
  rw [if_neg (by intro hc; exact hne hc.1)]
  simp [hr]

theorem gRow_swapRows_other (m : List (List K)) (r i j : Nat)
    (hj1 : j ≠ r) (hj2 : j ≠ i) : gRow (swapRows m r i) j = gRow m j := by
  unfold swapRows
  rw [gRow_set, gRow_set]
  rw [if_neg (by intro hc; exact hj2 hc.1.symm), if_neg (by intro hc; exact hj1 hc.1.symm)]

theorem gRow_mapIdxA (g : Nat → List K → List K) (m : List (List K)) (i : Nat)
    (h : i < m.length) :
    gRow (mapIdxA g 0 m) i = g i (gRow m i) := by
  unfold gRow
  have := mapIdxA_getD g 0 m i [] [] h
  simpa using this

theorem mem_swapRows (m : List (List K)) (r i : Nat) (row : List K)
    (hr : r < m.length) (hi : i < m.length) (h : row ∈ swapRows m r i) : row ∈ m := by
  unfold swapRows at h
  rcases List.mem_or_eq_of_mem_set h with h2 | h2
  · rcases List.mem_or_eq_of_mem_set h2 with h3 | h3
    · exact h3
    · exact h3 ▸ length_gRow_mem m i hi
  · exact h2 ▸ length_gRow_mem m r hr

/-!  ### Dot products and the canonical field operations -/

@[simp] theorem fieldOps_add [Field K] (a b : K) : (fieldOps K).add a b = a + b := rfl

@[simp] theorem fieldOps_mul [Field K] (a b : K) : (fieldOps K).mul a b = a * b := rfl

@[simp] theorem fieldOps_inv [Field K] (a : K) : (fieldOps K).inv a = a⁻¹ := rfl

@[simp] theorem dotv_nil_left [Mul K] [AddCommMonoid K] (v : List K) :
    dotv ([] : List K) v = 0 := rfl

@[simp] theorem dotv_nil_right [Mul K] [AddCommMonoid K] (row : List K) :
    dotv row ([] : List K) = 0 := by
  cases row <;> rfl

@[simp] theorem dotv_cons [Mul K] [AddCommMonoid K] (a b : K) (l w : List K) :
    dotv (a :: l) (b :: w) = a * b + dotv l w := by
  simp [dotv]

theorem dotv_scale [Field K] (row v : List K) (c : K) :
    dotv (scalePoly (fieldOps K) row c) v = dotv row v * c := by
  induction row generalizing v with
  | nil => simp [scalePoly]
  | cons a l ih =>
    cases v with
    | nil => simp
    | cons b w =>
      simp only [scalePoly, List.map_cons, dotv_cons, fieldOps_mul] at *
      rw [ih w]
      ring

theorem dotv_add [Field K] (a b v : List K) (hlen : a.length = b.length) :
    dotv (addPoly (fieldOps K) a b) v = dotv a v + dotv b v := by
  induction a generalizing b v with
  | nil =>
    cases b with
    | nil => simp [addPoly]
    | cons y bs => simp at hlen
  | cons x as ih =>
    cases b with
    | nil => simp at hlen
    | cons y bs =>
      cases v with
      | nil => simp
      | cons c w =>
        have hlen2 : as.length = bs.length := by simpa using hlen
        simp only [addPoly, List.zipWith_cons_cons, dotv_cons, fieldOps_add]
        have := ih bs w hlen2
        unfold addPoly at this
        rw [this]
        ring

theorem dotv_zero_right [Field K] (row : List K) (n : Nat) :
    dotv row (List.replicate n (0 : K)) = 0 := by
  induction row generalizing n with
  | nil => simp
  | cons a l ih =>
    cases n with
    | zero => simp
    | succ j => simp [List.replicate_succ, ih]

theorem dotv_drop_of_zeros [Field K] (row v : List K) (t : Nat)
    (h : ∀ j, j < t → row.getD j 0 = 0) :
    dotv row v = dotv (row.drop t) (v.drop t) := by
  induction t generalizing row v with
  | zero => simp
  | succ s ih =>
    cases row with
    | nil => simp
    | cons a l =>
      cases v with
      | nil => simp
      | cons b w =>
        have ha : a = 0 := h 0 (Nat.succ_pos s)
        simp only [dotv_cons, ha, zero_mul, zero_add, List.drop_succ_cons]
        exact ih l w fun j hj => h (j + 1) (by omega)

theorem dotv_append_right [Field K] (row v : List K) (y : K)
    (h : v.length ≤ row.length) :
    dotv (row ++ [y]) v = dotv row v := by
  induction row generalizing v with
  | nil =>
    cases v with
    | nil => simp
    | cons b w => simp at h
  | cons a l ih =>
    cases v with
    | nil => simp
    | cons b w => simp only [List.cons_append, dotv_cons]; rw [ih w (by simpa using h)]

theorem dotv_split [Field K] (row a b : List K) (h : a.length ≤ row.length) :
    dotv row (a ++ b) =
      dotv (row.take a.length) a + dotv (row.drop a.length) b := by
  conv_lhs => rw [← List.take_append_drop a.length row]
  unfold dotv
  rw [List.zipWith_append _ _ _ _ _ (by simp [Nat.min_eq_left h])]
  simp

theorem dotv_all_zero_right [Field K] (row v : List K)
    (h : ∀ j, j < v.length → v.getD j 0 = 0) : dotv row v = 0 := by
  induction row generalizing v with
  | nil => simp
  | cons a l ih =>
    cases v with
    | nil => simp
    | cons b w =>
      have hb : b = 0 := h 0 (by simp)
      simp only [dotv_cons, hb, mul_zero, zero_add]
      exact ih w fun j hj => h (j + 1) (by simpa using hj)

/-!  ### Powers and polynomial evaluation -/

@[simp] theorem powsFrom_length (f : GFOps K) (x : K) (n : Nat) (p : K) :
    (powsFrom f x n p).length = n := by
  induction n generalizing p with
  | zero => rfl
  | succ j ih => simp [powsFrom, ih]

@[simp] theorem pows_length [One K] (f : GFOps K) (n : Nat) (x : K) :
    (pows f n x).length = n := powsFrom_length f x n 1

theorem powsFrom_getD [Field K] (x p : K) (n j : Nat) (hj : j < n) :
    (powsFrom (fieldOps K) x n p).getD j 0 = p * x ^ j := by
  induction n generalizing p j with
  | zero => omega
  | succ s ih =>
    cases j with
    | zero => simp [powsFrom]
    | succ i =>
      have := ih (p * x) i (by omega)
      simp only [powsFrom, fieldOps_mul, List.getD_cons_succ]
      rw [this]
      ring

theorem pows_getD [Field K] (n j : Nat) (x : K) (hj : j < n) :
    (pows (fieldOps K) n x).getD j 0 = x ^ j := by
  unfold pows
  rw [powsFrom_getD x 1 n j hj, one_mul]

theorem dotv_powsFrom_smul [Field K] (x a p : K) (n : Nat) (w : List K) :
    dotv (powsFrom (fieldOps K) x n (a * p)) w =
      a * dotv (powsFrom (fieldOps K) x n p) w := by
  induction n generalizing p w with
  | zero => simp [powsFrom]
  | succ s ih =>
    cases w with
    | nil => simp
    | cons b u =>
      simp only [powsFrom, fieldOps_mul, dotv_cons]
      rw [mul_assoc a p x, ih (p * x) u]
      ring

theorem evalPolyAux_eq [Field K] (x : K) (cs : List K) (p r : K) :
    evalPolyAux (fieldOps K) x cs p r = r + dotv (powsFrom (fieldOps K) x cs.length p) cs := by
  induction cs generalizing p r with
  | nil => simp [evalPolyAux, powsFrom]
  | cons c cs ih =>
    simp only [evalPolyAux, fieldOps_mul, fieldOps_add, List.length_cons, powsFrom, dotv_cons]
    rw [ih (p * x) (r + p * c)]
    ring

theorem evalPoly_eq_dotv [Field K] (w : List K) (x : K) :
    evalPoly (fieldOps K) w x = dotv (pows (fieldOps K) w.length x) w := by
  unfold evalPoly pows
  rw [evalPolyAux_eq]
  simp

/-!  ### Shape lemmas for the elimination steps -/

@[simp] theorem length_scalePoly (f : GFOps K) (row : List K) (x : K) :
    (scalePoly f row x).length = row.length := by
  simp [scalePoly]

@[simp] theorem length_addPoly (f : GFOps K) (a b : List K) :
    (addPoly f a b).length = min a.length b.length := by
  simp [addPoly]

theorem scalePoly_getD [Field K] (row : List K) (c : K) (j : Nat) :
    (scalePoly (fieldOps K) row c).getD j 0 = row.getD j 0 * c := by
  unfold scalePoly
  rw [List.getD_eq_getElem?_getD, List.getElem?_map, List.getD_eq_getElem?_getD]
  cases hj : row[j]? <;> simp

theorem addPoly_getD [Field K] (a b : List K) (h : a.length = b.length) (j : Nat) :
    (addPoly (fieldOps K) a b).getD j 0 = a.getD j 0 + b.getD j 0 := by
  induction a generalizing b j with
  | nil =>
    cases b with
    | nil => simp [addPoly]
    | cons y bs => simp at h
  | cons x as ih =>
    cases b with
    | nil => simp at h
    | cons y bs =>
      cases j with
      | zero => simp [addPoly]
      | succ i =>
        have := ih bs (by simpa using h) i
        simpa [addPoly] using this

theorem WF_iff (k : Nat) (m : List (List K)) :
    WF k m ↔ m.length = k ∧ ∀ i, i < k → (gRow m i).length = k + 1 := by
  constructor
  · rintro ⟨h1, h2⟩
    exact ⟨h1, fun i hi => h2 _ (length_gRow_mem m i (h1 ▸ hi))⟩
  · rintro ⟨h1, h2⟩
    refine ⟨h1, fun row hrow => ?_⟩
    rcases List.mem_iff_getElem.mp hrow with ⟨i, hi, hrfl⟩
    have : gRow m i = row := by
      unfold gRow
      rw [List.getD_eq_getElem?_getD, List.getElem?_eq_getElem hi]
      exact hrfl
    rw [← this]
    exact h2 i (h1 ▸ hi)

theorem WF.rowLen {k : Nat} {m : List (List K)} (hwf : WF k m) {i : Nat} (hi : i < k) :
    (gRow m i).length = k + 1 :=
  ((WF_iff k m).mp hwf).2 i hi

theorem findNonzero_neg_one [Zero K] [DecidableEq K] {m : List (List K)} {r : Nat}
    (h : findNonzero m r = -1) : ∀ i, r ≤ i → i < m.length → gEl m i r = 0 := by
  intro i hri hilen
  unfold findNonzero at h
  cases hf : (List.range m.length).find?
      (fun i => decide (r ≤ i) && decide (gEl m i r ≠ 0)) with
  | none =>
    rw [List.find?_eq_none] at hf
    have := hf i (List.mem_range.mpr hilen)
    by_contra hne
    exact this (by simp [hri, hne])
  | some j =>
    rw [hf] at h
    simp at h

theorem findNonzero_nonneg [Zero K] [DecidableEq K] {m : List (List K)} {r : Nat}
    (h : findNonzero m r ≠ -1) :
    0 ≤ findNonzero m r ∧ r ≤ (findNonzero m r).toNat ∧
      (findNonzero m r).toNat < m.length ∧ gEl m (findNonzero m r).toNat r ≠ 0 := by
  unfold findNonzero at h ⊢
  cases hf : (List.range m.length).find?
      (fun i => decide (r ≤ i) && decide (gEl m i r ≠ 0)) with
  | none => rw [hf] at h; exact absurd rfl h
  | some j =>
    have hp := List.find?_some hf
    have hm := List.mem_of_find?_eq_some hf
    rw [List.mem_range] at hm
    simp only [Bool.and_eq_true, decide_eq_true_eq] at hp
    refine ⟨by positivity, ?_, ?_, ?_⟩ <;> simp [Int.toNat_ofNat, hp.1, hp.2, hm]

/-!  ### The pivot swap -/

theorem forall_rows_swapRows {m : List (List K)} {r i : Nat} (hr : r < m.length)
    (hi : i < m.length) (P : List K → Prop) :
    (∀ a, a < (swapRows m r i).length → P (gRow (swapRows m r i) a)) ↔
      (∀ a, a < m.length → P (gRow m a)) := by
  rw [length_swapRows]
  constructor
  · intro h a ha
    by_cases h1 : a = r
    · subst h1
      have := h i hi
      rwa [gRow_swapRows_left m a i hi] at this
    · by_cases h2 : a = i
      · subst h2
        have := h r hr
        rwa [gRow_swapRows_right m r a hr (fun hc => h1 hc)] at this
      · have := h a ha
        rwa [gRow_swapRows_other m r i a h1 h2] at this
  · intro h a ha
    by_cases h1 : a = i
    · subst h1
      rw [gRow_swapRows_left m r a hi]
      exact h r hr
    · by_cases h2 : a = r
      · subst h2
        rw [gRow_swapRows_right m a i ha (fun hc => absurd hc.symm h1)]
        exact h i hi
      · rw [gRow_swapRows_other m r i a h2 h1]
        exact h a ha

theorem WF_swapRows {k : Nat} {m : List (List K)} (hwf : WF k m) {r i : Nat}
    (hr : r < k) (hik : i < k) : WF k (swapRows m r i) := by
  have hr2 : r < m.length := hwf.1 ▸ hr
  have hi2 : i < m.length := hwf.1 ▸ hik
  refine ⟨by rw [length_swapRows]; exact hwf.1, fun row hrow => ?_⟩
  exact hwf.2 row (mem_swapRows m r i row hr2 hi2 hrow)

theorem ker_swapRows [Field K] {m : List (List K)} {r i : Nat} (hr : r < m.length)
    (hi : i < m.length) (v : List K) :
    IsKer (swapRows m r i) v ↔ IsKer m v :=
  forall_rows_swapRows hr hi (fun row => dotv row v = 0)

theorem sol_swapRows [Field K] {m : List (List K)} {r i : Nat} (hr : r < m.length)
    (hi : i < m.length) (v : List K) :
    IsSol (swapRows m r i) v ↔ IsSol m v :=
  forall_rows_swapRows hr hi (fun row => dotv row v = row.getD v.length 0)

theorem tri_swapRows [Zero K] [One K] {m : List (List K)} {r i : Nat} (ht : Tri m r)
    (hri : r ≤ i) (hr : r < m.length) (hik : i < m.length) : Tri (swapRows m r i) r := by
  have hrow : ∀ a, a < r → gRow (swapRows m r i) a = gRow m a := by
    intro a ha
    exact gRow_swapRows_other m r i a (by omega) (by omega)
  refine ⟨?_, ?_, ?_⟩
  · intro a j hj ha
    unfold gEl
    rw [hrow a ha]
    exact ht.1 a j hj ha
  · intro a ha
    unfold gEl
    rw [hrow a ha]
    exact ht.2.1 a ha
  · intro a j hra hj
    unfold gEl
    by_cases h1 : a = i
    · subst h1
      rw [gRow_swapRows_left m r a hik]
      exact ht.2.2 r j le_rfl hj
    · by_cases h2 : a = r
      · subst h2
        rw [gRow_swapRows_right m a i hr (fun hc => absurd hc.symm h1)]
        exact ht.2.2 i j hri hj
      · rw [gRow_swapRows_other m r i a h2 h1]
        exact ht.2.2 a j hra hj


/-!  ### The scaling loop -/

theorem length_scaleStep [Zero K] [DecidableEq K] (f : GFOps K) (r : Nat)
    (m : List (List K)) : (scaleStep f r m).length = m.length :=
  mapIdxA_length _ _ _

theorem gRow_scaleStep [Zero K] [DecidableEq K] (f : GFOps K) (r : Nat)
    (m : List (List K)) (i : Nat) (h : i < m.length) :
    gRow (scaleStep f r m) i =
      if r ≤ i ∧ (gRow m i).getD r 0 ≠ 0
      then scalePoly f (gRow m i) (f.inv ((gRow m i).getD r 0)) else gRow m i := by
  unfold scaleStep
  exact gRow_mapIdxA _ m i h

theorem WF_scaleStep [Zero K] [DecidableEq K] {k : Nat} {m : List (List K)}
    (f : GFOps K) (r : Nat) (hwf : WF k m) : WF k (scaleStep f r m) := by
  rw [WF_iff]
  refine ⟨by rw [length_scaleStep]; exact hwf.1, fun i hi => ?_⟩
  rw [gRow_scaleStep f r m i (hwf.1 ▸ hi)]
  by_cases hb : r ≤ i ∧ (gRow m i).getD r 0 ≠ 0
  · rw [if_pos hb, length_scalePoly]
    exact hwf.rowLen hi
  · rw [if_neg hb]
    exact hwf.rowLen hi

theorem tri_scaleStep [Field K] [DecidableEq K] {k : Nat} {m : List (List K)} {r : Nat}
    (ht : Tri m r) (hwf : WF k m) (hr : r < k) :
    Tri (scaleStep (fieldOps K) r m) r := by
  have hmk : m.length = k := hwf.1
  have hsmall : ∀ a, a < r → a < m.length →
      gRow (scaleStep (fieldOps K) r m) a = gRow m a := by
    intro a ha hal
    rw [gRow_scaleStep _ r m a hal]
    exact if_neg (fun hcc => by omega)
  have hnil : ∀ a, m.length ≤ a → gRow (scaleStep (fieldOps K) r m) a = [] := by
    intro a ha
    exact gRow_eq_nil _ a (by rw [length_scaleStep]; omega)
  refine ⟨?_, ?_, ?_⟩
  · intro a j hj ha
    unfold gEl
    by_cases hal : a < m.length
    · rw [hsmall a ha hal]
      exact ht.1 a j hj ha
    · rw [hnil a (by omega)]
      simp
  · intro a ha
    unfold gEl
    rw [hsmall a ha (by omega : a < m.length)]
    exact ht.2.1 a ha
  · intro a j hra hj
    unfold gEl
    by_cases hal : a < m.length
    · rw [gRow_scaleStep _ r m a hal]
      by_cases hb : r ≤ a ∧ (gRow m a).getD r 0 ≠ 0
      · rw [if_pos hb, scalePoly_getD]
        have h0 := ht.2.2 a j hra hj
        unfold gEl at h0
        rw [h0, zero_mul]
      · rw [if_neg hb]
        exact ht.2.2 a j hra hj
    · rw [hnil a (by omega)]
      simp

theorem scaleStep_col_r [Field K] [DecidableEq K] (m : List (List K)) (r : Nat) :
    ∀ i, r ≤ i → gEl (scaleStep (fieldOps K) r m) i r = 0 ∨
      gEl (scaleStep (fieldOps K) r m) i r = 1 := by
  intro i hi
  unfold gEl
  by_cases hal : i < m.length
  · rw [gRow_scaleStep _ r m i hal]
    by_cases hb : r ≤ i ∧ (gRow m i).getD r 0 ≠ 0
    · right
      rw [if_pos hb, scalePoly_getD, fieldOps_inv]
      exact mul_inv_cancel₀ hb.2
    · left
      rw [if_neg hb]
      by_contra hne
      exact hb ⟨hi, hne⟩
  · left
    rw [gRow_eq_nil _ i (by rw [length_scaleStep]; omega)]
    simp

theorem scaleStep_pivot [Field K] [DecidableEq K] {m : List (List K)} {r : Nat}
    (h : gEl m r r ≠ 0) (hlen : r < m.length) :
    gEl (scaleStep (fieldOps K) r m) r r = 1 := by
  unfold gEl
  unfold gEl at h
  rw [gRow_scaleStep _ r m r hlen, if_pos ⟨le_rfl, h⟩, scalePoly_getD, fieldOps_inv]
  exact mul_inv_cancel₀ h

theorem ker_scaleStep [Field K] [DecidableEq K] {m : List (List K)} {r : Nat}
    (v : List K) : IsKer (scaleStep (fieldOps K) r m) v ↔ IsKer m v := by
  unfold IsKer
  rw [length_scaleStep]
  refine forall_congr' fun i => ?_
  refine forall_congr' fun hi => ?_
  rw [gRow_scaleStep _ r m i hi]
  by_cases hb : r ≤ i ∧ (gRow m i).getD r 0 ≠ 0
  · rw [if_pos hb, dotv_scale]
    have hcc : ((fieldOps K).inv ((gRow m i).getD r 0)) ≠ 0 := by
      rw [fieldOps_inv]
      exact inv_ne_zero hb.2
    constructor
    · intro h
      rcases mul_eq_zero.mp h with h2 | h2
      · exact h2
      · exact absurd h2 hcc
    · intro h
      rw [h, zero_mul]
  · rw [if_neg hb]

theorem sol_scaleStep [Field K] [DecidableEq K] {m : List (List K)} {r : Nat}
    {v : List K} (h : IsSol m v) : IsSol (scaleStep (fieldOps K) r m) v := by
  intro i hi
  rw [length_scaleStep] at hi
  rw [gRow_scaleStep _ r m i hi]
  by_cases hb : r ≤ i ∧ (gRow m i).getD r 0 ≠ 0
  · rw [if_pos hb, dotv_scale, scalePoly_getD, h i hi]
  · rw [if_neg hb]
    exact h i hi

/-!  ### The elimination loop -/

theorem length_elimStep [Zero K] [DecidableEq K] (f : GFOps K) (r : Nat)
    (m : List (List K)) : (elimStep f r m).length = m.length :=
  mapIdxA_length _ _ _

theorem gRow_elimStep [Zero K] [DecidableEq K] (f : GFOps K) (r : Nat)
    (m : List (List K)) (i : Nat) (h : i < m.length) :
    gRow (elimStep f r m) i =
      if r + 1 ≤ i ∧ (gRow m i).getD r 0 ≠ 0
      then addPoly f (gRow m i) (gRow m r) else gRow m i := by
  unfold elimStep
  exact gRow_mapIdxA _ m i h

theorem gRow_elimStep_r [Zero K] [DecidableEq K] (f : GFOps K) (r : Nat)
    (m : List (List K)) : gRow (elimStep f r m) r = gRow m r := by
  by_cases h : r < m.length
  · rw [gRow_elimStep f r m r h, if_neg (fun hc => by omega)]
  · rw [gRow_eq_nil _ r (by rw [length_elimStep]; omega), gRow_eq_nil m r (by omega)]

theorem WF_elimStep [Zero K] [DecidableEq K] {k : Nat} {m : List (List K)}
    (f : GFOps K) {r : Nat} (hwf : WF k m) (hr : r < k) : WF k (elimStep f r m) := by
  rw [WF_iff]
  refine ⟨by rw [length_elimStep]; exact hwf.1, fun i hi => ?_⟩
  rw [gRow_elimStep f r m i (hwf.1 ▸ hi)]
  by_cases hb : r + 1 ≤ i ∧ (gRow m i).getD r 0 ≠ 0
  · rw [if_pos hb, length_addPoly, hwf.rowLen hi, hwf.rowLen hr]
    simp
  · rw [if_neg hb]
    exact hwf.rowLen hi

theorem ker_elimStep [Field K] [DecidableEq K] {k : Nat} {m : List (List K)} {r : Nat}
    (hwf : WF k m) (hr : r < k) (v : List K) :
    IsKer (elimStep (fieldOps K) r m) v ↔ IsKer m v := by
  have hmr : ∀ i, i < m.length →
      dotv (addPoly (fieldOps K) (gRow m i) (gRow m r)) v =
        dotv (gRow m i) v + dotv (gRow m r) v := by
    intro i hi
    exact dotv_add _ _ _ (by rw [hwf.rowLen (hwf.1 ▸ hi), hwf.rowLen hr])
  unfold IsKer
  rw [length_elimStep]
  constructor
  · intro h i hi
    have hrr := h r (hwf.1 ▸ hr)
    rw [gRow_elimStep_r] at hrr
    have hii := h i hi
    rw [gRow_elimStep _ r m i hi] at hii
    by_cases hb : r + 1 ≤ i ∧ (gRow m i).getD r 0 ≠ 0
    · rw [if_pos hb, hmr i hi, hrr, add_zero] at hii
      exact hii
    · rwa [if_neg hb] at hii
  · intro h i hi
    rw [gRow_elimStep _ r m i hi]
    by_cases hb : r + 1 ≤ i ∧ (gRow m i).getD r 0 ≠ 0
    · rw [if_pos hb, hmr i hi, h i hi, h r (hwf.1 ▸ hr), add_zero]
    · rw [if_neg hb]
      exact h i hi

theorem sol_elimStep [Field K] [DecidableEq K] {k : Nat} {m : List (List K)} {r : Nat}
    (hwf : WF k m) (hr : r < k) {v : List K} (h : IsSol m v) :
    IsSol (elimStep (fieldOps K) r m) v := by
  intro i hi
  rw [length_elimStep] at hi
  rw [gRow_elimStep _ r m i hi]
  by_cases hb : r + 1 ≤ i ∧ (gRow m i).getD r 0 ≠ 0
  · rw [if_pos hb]
    have hlen : (gRow m i).length = (gRow m r).length := by
      rw [hwf.rowLen (hwf.1 ▸ hi), hwf.rowLen hr]
    rw [dotv_add _ _ _ hlen, addPoly_getD _ _ hlen, h i hi, h r (hwf.1 ▸ hr)]
  · rw [if_neg hb]
    exact h i hi

theorem tri_elimStep [Field K] [DecidableEq K] (hc : ∀ x : K, x + x = 0)
    {k : Nat} {m : List (List K)} {r : Nat} (hwf : WF k m) (hr : r < k) (ht : Tri m r)
    (hcolr : ∀ i, r ≤ i → gEl m i r = 0 ∨ gEl m i r = 1) (hpiv : gEl m r r = 1) :
    Tri (elimStep (fieldOps K) r m) (r + 1) := by
  have hmk : m.length = k := hwf.1
  have hrow : ∀ a, a < r → a < m.length → gRow (elimStep (fieldOps K) r m) a = gRow m a := by
    intro a ha hal
    rw [gRow_elimStep _ r m a hal]
    exact if_neg (fun hcc => by omega)
  refine ⟨?_, ?_, ?_⟩
  · intro a j hj ha
    unfold gEl
    by_cases haa : a = r
    · subst haa
      rw [gRow_elimStep_r]
      have h0 := ht.2.2 a j le_rfl (by omega)
      unfold gEl at h0
      exact h0
    · rw [hrow a (by omega) (by omega)]
      exact ht.1 a j hj (by omega)
  · intro a ha
    unfold gEl
    by_cases haa : a = r
    · subst haa
      rw [gRow_elimStep_r]
      exact hpiv
    · rw [hrow a (by omega) (by omega)]
      exact ht.2.1 a (by omega)
  · intro a j hra hj
    unfold gEl
    by_cases hal : a < m.length
    · rw [gRow_elimStep _ r m a hal]
      have hlen : (gRow m a).length = (gRow m r).length := by
        rw [hwf.rowLen (hwf.1 ▸ hal), hwf.rowLen hr]
      by_cases hb : r + 1 ≤ a ∧ (gRow m a).getD r 0 ≠ 0
      · rw [if_pos hb, addPoly_getD _ _ hlen]
        by_cases hjr : j = r
        · subst hjr
          have h1 : (gRow m a).getD j 0 = 1 := by
            rcases hcolr a (by omega) with h0 | h11
            · exact absurd h0 hb.2
            · exact h11
          unfold gEl at hpiv
          rw [h1, hpiv]
          exact hc 1
        · have hjlt : j < r := by omega
          have h1 := ht.2.2 a j (by omega) hjlt
          have h2 := ht.2.2 r j le_rfl hjlt
          unfold gEl at h1 h2
          rw [h1, h2, add_zero]
      · rw [if_neg hb]
        by_cases hjr : j = r
        · subst hjr
          by_contra hne
          exact hb ⟨hra, hne⟩
        · exact ht.2.2 a j (by omega) (by omega)
    · rw [gRow_eq_nil _ a (by rw [length_elimStep]; omega)]
      simp

/-!  ### The kernel witness at a dead pivot column -/

theorem zipWith_take_left (f : K → K → K) (l w : List K) (n : Nat) (h : w.length ≤ n) :
    List.zipWith f (l.take n) w = List.zipWith f l w := by
  induction l generalizing n w with
  | nil => simp
  | cons a as ih =>
    cases n with
    | zero =>
      cases w with
      | nil => simp
      | cons b bs => simp at h
    | succ s =>
      cases w with
      | nil => simp
      | cons b bs =>
        simp only [List.take_succ_cons, List.zipWith_cons_cons]
        rw [ih bs s (by simpa using h)]

theorem kerList_length [Field K] (m : List (List K)) (r : Nat) :
    ∀ d, (kerList m r d).length = d + 1 := by
  intro d
  induction d with
  | zero => rfl
  | succ s ih => simp [kerList, ih]

theorem kerList_getD_last [Field K] (m : List (List K)) (r : Nat) :
    ∀ d, (kerList m r d).getD d 0 = 1 := by
  intro d
  induction d with
  | zero => rfl
  | succ s ih => simpa [kerList] using ih

theorem kerList_drop [Field K] (m : List (List K)) (r : Nat) :
    ∀ d j, j ≤ d → (kerList m r d).drop j = kerList m r (d - j) := by
  intro d
  induction d with
  | zero =>
    intro j hj
    interval_cases j
    simp
  | succ s ih =>
    intro j hj
    cases j with
    | zero => simp
    | succ jj =>
      have : (kerList m r (s + 1)).drop (jj + 1) = (kerList m r s).drop jj := by
        simp [kerList]
      rw [this, ih jj (by omega)]
      congr 1
      omega

theorem kerVec_length [Field K] (m : List (List K)) (r k : Nat) (hr : r < k) :
    (kerVec m r k).length = k := by
  unfold kerVec
  rw [List.length_append, kerList_length, List.length_replicate]
  omega

theorem kerList_succ [Field K] (m : List (List K)) (r d : Nat) :
    kerList m r (d + 1) =
      (-(List.zipWith (fun a b => a * b) ((gRow m (r - d - 1)).drop (r - d))
        (kerList m r d)).sum) :: kerList m r d := rfl

theorem drop_eq_getD_cons [Zero K] (l : List K) (i : Nat) (h : i < l.length) :
    l.drop i = l.getD i 0 :: l.drop (i + 1) := by
  induction l generalizing i with
  | nil => cases h
  | cons a as ih =>
    cases i with
    | zero => rfl
    | succ j =>
      simp only [List.drop_succ_cons, List.getD_cons_succ]
      exact ih j (by simpa using h)

theorem kerVec_getD_r [Field K] (m : List (List K)) (r k : Nat) :
    (kerVec m r k).getD r 0 = 1 := by
  unfold kerVec
  rw [List.getD_eq_getElem?_getD, List.getElem?_append, kerList_length m r r,
    if_pos (by omega : r < r + 1), ← List.getD_eq_getElem?_getD]
  exact kerList_getD_last m r r

theorem kerVec_isKer [Field K] {k : Nat} {m : List (List K)} {r : Nat}
    (hwf : WF k m) (hr : r < k) (ht : Tri m r)
    (hdead : ∀ i, r ≤ i → i < k → gEl m i r = 0) : IsKer m (kerVec m r k) := by
  have hmk : m.length = k := hwf.1
  intro i hi
  have hrowlen : (gRow m i).length = k + 1 := hwf.rowLen (hmk ▸ hi)
  have hkl : (kerList m r r).length = r + 1 := kerList_length m r r
  have hsplit : dotv (gRow m i) (kerVec m r k) =
      dotv ((gRow m i).take (r + 1)) (kerList m r r) := by
    unfold kerVec
    rw [dotv_split _ _ _ (by omega), hkl, dotv_zero_right, add_zero]
  by_cases hcase : r ≤ i
  · -- rows at or below the pivot: the first r+1 columns are all zero
    rw [hsplit]
    have hz : ∀ j, j < r + 1 → ((gRow m i).take (r + 1)).getD j 0 = 0 := by
      intro j hj
      rw [List.getD_eq_getElem?_getD, List.getElem?_take_of_lt hj,
        ← List.getD_eq_getElem?_getD]
      by_cases hjr : j < r
      · exact ht.2.2 i j hcase hjr
      · have : j = r := by omega
        subst this
        exact hdead i hcase (hmk ▸ hi)
    rw [dotv_drop_of_zeros _ _ (r + 1) hz]
    have : ((gRow m i).take (r + 1)).drop (r + 1) = [] := by
      apply List.drop_eq_nil_of_le
      rw [List.length_take]
      omega
    rw [this]
    simp
  · -- rows above the pivot: the entry cancels against the tail by construction
    push_neg at hcase
    rw [hsplit]
    have htake : ∀ j, j < r + 1 → ((gRow m i).take (r + 1)).getD j 0 = (gRow m i).getD j 0 := by
      intro j hj
      rw [List.getD_eq_getElem?_getD, List.getElem?_take_of_lt hj, ← List.getD_eq_getElem?_getD]
    have hz : ∀ j, j < i → ((gRow m i).take (r + 1)).getD j 0 = 0 := by
      intro j hj
      rw [htake j (by omega)]
      exact ht.1 i j hj hcase
    rw [dotv_drop_of_zeros _ _ i hz, kerList_drop m r r i (by omega)]
    have hlt : i < ((gRow m i).take (r + 1)).length := by
      rw [List.length_take]
      omega
    rw [drop_eq_getD_cons _ i hlt]
    have hri : r - i = (r - i - 1) + 1 := by omega
    rw [hri, kerList_succ]
    have hi1 : r - (r - i - 1) - 1 = i := by omega
    have hi2 : r - (r - i - 1) = i + 1 := by omega
    rw [hi1, hi2, dotv_cons]
    have hget1 : ((gRow m i).take (r + 1)).getD i 0 = (1 : K) := by
      rw [htake i (by omega)]
      exact ht.2.1 i hcase
    rw [hget1, one_mul]
    have hdroptake : ((gRow m i).take (r + 1)).drop (i + 1) =
        ((gRow m i).drop (i + 1)).take (r - i) := by
      rw [List.drop_take]
      congr 1
      omega
    show _ + dotv _ _ = 0
    unfold dotv
    rw [hdroptake, zipWith_take_left _ _ _ _
      (by rw [kerList_length m r (r - i - 1)]; omega)]
    exact neg_add_cancel _

/-!  ### One forward-elimination step -/

theorem gaussStep_core [Field K] [DecidableEq K] (hc : ∀ x : K, x + x = 0)
    {k : Nat} {m1 : List (List K)} {r : Nat} (hwf : WF k m1) (hr : r < k)
    (ht : Tri m1 r) (hnz : gEl m1 r r ≠ 0) :
    WF k (elimStep (fieldOps K) r (scaleStep (fieldOps K) r m1)) ∧
    Tri (elimStep (fieldOps K) r (scaleStep (fieldOps K) r m1)) (r + 1) ∧
    (∀ v, IsKer (elimStep (fieldOps K) r (scaleStep (fieldOps K) r m1)) v ↔ IsKer m1 v) ∧
    (∀ v, IsSol m1 v → IsSol (elimStep (fieldOps K) r (scaleStep (fieldOps K) r m1)) v) := by
  have hwf2 : WF k (scaleStep (fieldOps K) r m1) := WF_scaleStep _ r hwf
  have ht2 : Tri (scaleStep (fieldOps K) r m1) r := tri_scaleStep ht hwf hr
  have hpiv : gEl (scaleStep (fieldOps K) r m1) r r = 1 :=
    scaleStep_pivot hnz (hwf.1 ▸ hr)
  refine ⟨WF_elimStep _ hwf2 hr, ?_, ?_, ?_⟩
  · exact tri_elimStep hc hwf2 hr ht2 (scaleStep_col_r m1 r) hpiv
  · intro v
    rw [ker_elimStep hwf2 hr, ker_scaleStep]
  · intro v hv
    exact sol_elimStep hwf2 hr (sol_scaleStep hv)

theorem gaussStep_ok [Field K] [DecidableEq K] (hc : ∀ x : K, x + x = 0)
    {k : Nat} {m m2 : List (List K)} {r : Nat} (hwf : WF k m) (hr : r < k)
    (ht : Tri m r) (hok : gaussStep (fieldOps K) m r = .ok m2) :
    WF k m2 ∧ Tri m2 (r + 1) ∧ (∀ v, IsKer m2 v ↔ IsKer m v) ∧
    (∀ v, IsSol m v → IsSol m2 v) := by
  unfold gaussStep at hok
  by_cases hpz : gEl m r r = 0
  · simp only [hpz, if_pos, if_true] at hok
    by_cases hfn : findNonzero m r = -1
    · rw [if_pos hfn] at hok
      simp at hok
    · rw [if_neg hfn] at hok
      simp only [Except.ok.injEq] at hok
      rcases findNonzero_nonneg hfn with ⟨hge, hle, hlt, hnz⟩
      set it := (findNonzero m r).toNat with hit
      have hitk : it < k := hwf.1 ▸ hlt
      have hitr : it ≠ r := by
        intro hcc
        rw [hcc] at hnz
        exact hnz hpz
      have hwfs : WF k (swapRows m r it) := WF_swapRows hwf hr hitk
      have hts : Tri (swapRows m r it) r := tri_swapRows ht hle (hwf.1 ▸ hr) hlt
      have hnzs : gEl (swapRows m r it) r r ≠ 0 := by
        unfold gEl
        rw [gRow_swapRows_right m r it (hwf.1 ▸ hr) hitr]
        exact hnz
      rcases gaussStep_core hc hwfs hr hts hnzs with ⟨h1, h2, h3, h4⟩
      rw [hok] at h1 h2 h3 h4
      refine ⟨h1, h2, fun v => ?_, fun v hv => ?_⟩
      · rw [h3 v, ker_swapRows (hwf.1 ▸ hr) hlt]
      · exact h4 v ((sol_swapRows (hwf.1 ▸ hr) hlt v).mpr hv)
  · simp only [hpz, if_neg, if_false] at hok
    simp only [Except.ok.injEq] at hok
    rcases gaussStep_core hc hwf hr ht hpz with ⟨h1, h2, h3, h4⟩
    rw [hok] at h1 h2 h3 h4
    exact ⟨h1, h2, h3, h4⟩

theorem gaussStep_err [Field K] [DecidableEq K]
    {m : List (List K)} {r : Nat} {e : GoErr}
    (herr : gaussStep (fieldOps K) m r = .error e) :
    e = .singular ∧ gEl m r r = 0 ∧ ∀ i, r ≤ i → i < m.length → gEl m i r = 0 := by
  unfold gaussStep at herr
  by_cases hpz : gEl m r r = 0
  · simp only [hpz, if_pos, if_true] at herr
    by_cases hfn : findNonzero m r = -1
    · rw [if_pos hfn] at herr
      simp only [Except.error.injEq] at herr
      exact ⟨herr.symm, hpz, findNonzero_neg_one hfn⟩
    · rw [if_neg hfn] at herr
      simp at herr
  · simp only [hpz, if_neg, if_false] at herr
    simp at herr

/-!  ### The forward elimination loop -/

theorem gaussFwd_ok [Field K] [DecidableEq K] (hc : ∀ x : K, x + x = 0) {k : Nat} :
    ∀ steps r (m m2 : List (List K)), r + steps = k → WF k m → Tri m r →
    gaussFwdAux (fieldOps K) steps r m = .ok m2 →
    WF k m2 ∧ Tri m2 k ∧ (∀ v, IsKer m2 v ↔ IsKer m v) ∧
    (∀ v, IsSol m v → IsSol m2 v) := by
  intro steps
  induction steps with
  | zero =>
    intro r m m2 hrk hwf ht hok
    unfold gaussFwdAux at hok
    simp only [Except.ok.injEq] at hok
    subst hok
    have : r = k := by omega
    subst this
    exact ⟨hwf, ht, fun v => Iff.rfl, fun v hv => hv⟩
  | succ s ih =>
    intro r m m2 hrk hwf ht hok
    unfold gaussFwdAux at hok
    cases hstep : gaussStep (fieldOps K) m r with
    | error e => rw [hstep] at hok; simp at hok
    | ok mm =>
      rw [hstep] at hok
      rcases gaussStep_ok hc hwf (by omega) ht hstep with ⟨h1, h2, h3, h4⟩
      rcases ih (r + 1) mm m2 (by omega) h1 h2 hok with ⟨g1, g2, g3, g4⟩
      refine ⟨g1, g2, fun v => ?_, fun v hv => g4 v (h4 v hv)⟩
      rw [g3 v, h3 v]

theorem gaussFwd_err [Field K] [DecidableEq K] (hc : ∀ x : K, x + x = 0) {k : Nat} :
    ∀ steps r (m : List (List K)) (e : GoErr), r + steps = k → WF k m → Tri m r →
    gaussFwdAux (fieldOps K) steps r m = .error e →
    e = .singular ∧ ∃ v, v.length = k ∧ IsKer m v ∧ ∃ j, v.getD j 0 ≠ 0 := by
  intro steps
  induction steps with
  | zero =>
    intro r m e hrk hwf ht herr
    unfold gaussFwdAux at herr
    simp at herr
  | succ s ih =>
    intro r m e hrk hwf ht herr
    unfold gaussFwdAux at herr
    cases hstep : gaussStep (fieldOps K) m r with
    | error e2 =>
      rw [hstep] at herr
      simp only [Except.error.injEq] at herr
      subst herr
      rcases gaussStep_err hstep with ⟨he, hpz, hdead⟩
      refine ⟨he, kerVec m r k, kerVec_length m r k (by omega), ?_, r, ?_⟩
      · exact kerVec_isKer hwf (by omega) ht (fun i h1 h2 => hdead i h1 (hwf.1 ▸ h2))
      · rw [kerVec_getD_r]
        exact one_ne_zero
    | ok mm =>
      rw [hstep] at herr
      rcases gaussStep_ok hc hwf (by omega) ht hstep with ⟨h1, h2, h3, _⟩
      rcases ih (r + 1) mm e (by omega) h1 h2 herr with ⟨he, v, hv1, hv2, hv3⟩
      exact ⟨he, v, hv1, (h3 v).mp hv2, hv3⟩

/-!  ### Back substitution -/

theorem getD_drop (l : List K) (i j : Nat) (d : K) :
    (l.drop i).getD j d = l.getD (i + j) d := by
  rw [List.getD_eq_getElem?_getD, List.getElem?_drop, List.getD_eq_getElem?_getD]

theorem getD_of_le (l : List K) (j : Nat) (d : K) (h : l.length ≤ j) :
    l.getD j d = d := by
  rw [List.getD_eq_getElem?_getD, List.getElem?_eq_none h]
  rfl

theorem tri_zero [Zero K] [One K] (m : List (List K)) : Tri m 0 :=
  ⟨fun _ _ _ h => by omega, fun _ h => by omega, fun _ j _ h => by omega⟩

theorem backSubAux_spec [Field K] (hc : ∀ x : K, x + x = 0) {k : Nat}
    {T : List (List K)} (_hwfT : WF k T) (htT : Tri T k) :
    ∀ steps r (m : List (List K)), 1 ≤ r → r + steps = k → WF k m →
      gEl m 0 0 = 1 →
      (∀ j, 1 ≤ j → j < r → gEl m 0 j = 0) →
      (∀ i, r ≤ i → i < k → gRow m i = gRow T i) →
      WF k (backSubAux (fieldOps K) steps r m) ∧
      gEl (backSubAux (fieldOps K) steps r m) 0 0 = 1 ∧
      (∀ j, 1 ≤ j → j < k → gEl (backSubAux (fieldOps K) steps r m) 0 j = 0) ∧
      (∀ v, IsSol m v → IsSol (backSubAux (fieldOps K) steps r m) v) := by
  intro steps
  induction steps with
  | zero =>
    intro r m h1r hrk hwf h00 h0j hrows
    unfold backSubAux
    exact ⟨hwf, h00, fun j hj1 hj2 => h0j j hj1 (by omega), fun v hv => hv⟩
  | succ s ih =>
    intro r m h1r hrk hwf h00 h0j hrows
    have hrk2 : r < k := by omega
    have hk0 : 0 < k := by omega
    have hmlen : m.length = k := hwf.1
    have hrowr : gRow m r = gRow T r := hrows r le_rfl hrk2
    have hlen0 : (gRow m 0).length = k + 1 := hwf.rowLen hk0
    have hlenr : (gRow m r).length = k + 1 := hwf.rowLen hrk2
    set c := gEl m 0 r with hcdef
    set mr := scalePoly (fieldOps K) (gRow m r) c with hmrdef
    set m2 := (m.set r mr).set 0 (addPoly (fieldOps K) (gRow m 0) mr) with hm2def
    have hmrlen : mr.length = k + 1 := by
      rw [hmrdef, length_scalePoly, hlenr]
    have haddlen : (addPoly (fieldOps K) (gRow m 0) mr).length = k + 1 := by
      rw [length_addPoly, hlen0, hmrlen]
      simp
    have hm2len : m2.length = k := by
      rw [hm2def]
      simp [hmlen]
    have hrow0 : gRow m2 0 = addPoly (fieldOps K) (gRow m 0) mr := by
      rw [hm2def, gRow_set]
      rw [if_pos ⟨rfl, by simp [hmlen]; omega⟩]
    have hrowr2 : gRow m2 r = mr := by
      rw [hm2def, gRow_set, if_neg (fun hcc => by omega), gRow_set,
        if_pos ⟨rfl, by omega⟩]
    have hrowi : ∀ i, i ≠ 0 → i ≠ r → gRow m2 i = gRow m i := by
      intro i hi0 hir
      rw [hm2def, gRow_set, if_neg (fun hcc => hi0 hcc.1.symm), gRow_set,
        if_neg (fun hcc => hir hcc.1.symm)]
    have hwf2 : WF k m2 := by
      rw [WF_iff]
      refine ⟨hm2len, fun i hi => ?_⟩
      by_cases hi0 : i = 0
      · subst hi0
        rw [hrow0]
        exact haddlen
      · by_cases hir : i = r
        · subst hir
          rw [hrowr2]
          exact hmrlen
        · rw [hrowi i hi0 hir]
          exact hwf.rowLen hi
    have hTr0 : (gRow m r).getD 0 0 = 0 := by
      have := htT.1 r 0 (by omega) hrk2
      unfold gEl at this
      rw [hrowr]
      exact this
    have hTrr : (gRow m r).getD r 0 = 1 := by
      have := htT.2.1 r hrk2
      unfold gEl at this
      rw [hrowr]
      exact this
    have hTrj : ∀ j, j < r → (gRow m r).getD j 0 = 0 := by
      intro j hj
      have := htT.1 r j hj hrk2
      unfold gEl at this
      rw [hrowr]
      exact this
    have hlen0r : (gRow m 0).length = mr.length := by rw [hlen0, hmrlen]
    have h002 : gEl m2 0 0 = 1 := by
      unfold gEl
      rw [hrow0, addPoly_getD _ _ hlen0r, hmrdef, scalePoly_getD, hTr0, zero_mul, add_zero]
      exact h00
    have h0j2 : ∀ j, 1 ≤ j → j < r + 1 → gEl m2 0 j = 0 := by
      intro j hj1 hj2
      unfold gEl
      rw [hrow0, addPoly_getD _ _ hlen0r, hmrdef, scalePoly_getD]
      by_cases hjr : j = r
      · subst hjr
        rw [hTrr, one_mul]
        have : gEl m 0 j = c := by rw [hcdef]
        unfold gEl at this
        rw [this]
        exact hc c
      · rw [hTrj j (by omega)]
        have := h0j j hj1 (by omega)
        unfold gEl at this
        rw [this, zero_mul, add_zero]
    have hrows2 : ∀ i, r + 1 ≤ i → i < k → gRow m2 i = gRow T i := by
      intro i hi1 hi2
      rw [hrowi i (by omega) (by omega)]
      exact hrows i (by omega) hi2
    have hsol2 : ∀ v, IsSol m v → IsSol m2 v := by
      intro v hv i hi
      rw [hm2len] at hi
      by_cases hi0 : i = 0
      · subst hi0
        rw [hrow0, dotv_add _ _ _ hlen0r, addPoly_getD _ _ hlen0r, hmrdef,
          dotv_scale, scalePoly_getD]
        have hv0 := hv 0 (by omega)
        have hvr := hv r (by omega)
        rw [hv0, hvr]
      · by_cases hir : i = r
        · subst hir
          rw [hrowr2, hmrdef, dotv_scale, scalePoly_getD]
          have := hv i (by omega)
          rw [this]
        · rw [hrowi i hi0 hir]
          exact hv i (by omega)
    have hres : backSubAux (fieldOps K) (s + 1) r m = backSubAux (fieldOps K) s (r + 1) m2 := by
      conv_lhs => unfold backSubAux
    rw [hres]
    rcases ih (r + 1) m2 (by omega) (by omega) hwf2 h002 h0j2 hrows2 with ⟨g1, g2, g3, g4⟩
    exact ⟨g1, g2, g3, fun v hv => g4 v (hsol2 v hv)⟩

theorem tri_ker_trivial [Field K] {k : Nat} {T : List (List K)} (hwfT : WF k T)
    (htT : Tri T k) (v : List K) (hv : v.length = k) (hker : IsKer T v) :
    ∀ j, v.getD j 0 = 0 := by
  have main : ∀ d, d ≤ k → ∀ j, k - d ≤ j → v.getD j 0 = 0 := by
    intro d
    induction d with
    | zero =>
      intro _ j hj
      exact getD_of_le v j 0 (by omega)
    | succ s ihs =>
      intro hd j hj
      by_cases hjs : k - s ≤ j
      · exact ihs (by omega) j hjs
      · have hjeq : j = k - s - 1 := by omega
        have hjk : j < k := by omega
        have hrow := hker j (hwfT.1 ▸ hjk)
        have hrl : (gRow T j).length = k + 1 := hwfT.rowLen hjk
        have hz : ∀ l, l < j → (gRow T j).getD l 0 = 0 := by
          intro l hl
          exact htT.1 j l hl hjk
        rw [dotv_drop_of_zeros _ _ j hz,
          drop_eq_getD_cons (gRow T j) j (by omega),
          drop_eq_getD_cons v j (by omega), dotv_cons] at hrow
        have hjj : (gRow T j).getD j 0 = 1 := htT.2.1 j hjk
        have hrest : dotv ((gRow T j).drop (j + 1)) (v.drop (j + 1)) = 0 := by
          apply dotv_all_zero_right
          intro l hl
          rw [getD_drop]
          exact ihs (by omega) (j + 1 + l) (by omega)
        rw [hjj, one_mul, hrest, add_zero] at hrow
        exact hrow
  intro j
  by_cases hjk : j < k
  · exact main k le_rfl j (by omega)
  · exact getD_of_le v j 0 (by omega)

/-!  ### Main facts about `gauss` -/

theorem dotv_unit_row [Field K] {k : Nat} (row v : List K)
    (hrowlen : row.length = k + 1) (hv : v.length = k) (hk : 1 ≤ k)
    (h0 : row.getD 0 0 = 1) (hz : ∀ j, 1 ≤ j → j < k → row.getD j 0 = 0) :
    dotv row v = v.getD 0 0 := by
  cases row with
  | nil => simp at hrowlen
  | cons a rest =>
    cases v with
    | nil => simp at hv; omega
    | cons b w =>
      have ha : a = 1 := h0
      have hwlen : w.length = k - 1 := by simp at hv; omega
      have hrest : dotv rest w = 0 := by
        have hzz : ∀ j, j < w.length → rest.getD j 0 = 0 := by
          intro j hj
          have := hz (j + 1) (by omega) (by omega)
          simpa using this
        rw [dotv_drop_of_zeros rest w w.length hzz, List.drop_length]
        simp
      rw [dotv_cons, ha, one_mul, hrest, add_zero]
      rfl

theorem gauss_ok_spec [Field K] [DecidableEq K] (hc : ∀ x : K, x + x = 0)
    {k : Nat} {m mf : List (List K)} (hk : 1 ≤ k) (hwf : WF k m)
    (hok : gauss (fieldOps K) m = .ok mf) :
    (∀ v, v.length = k → IsSol m v → gEl mf 0 k = v.getD 0 0) ∧
    (∀ v, v.length = k → IsKer m v → ∀ j, v.getD j 0 = 0) := by
  unfold gauss at hok
  cases hfwd : gaussFwdAux (fieldOps K) m.length 0 m with
  | error e => rw [hfwd] at hok; simp at hok
  | ok T =>
    rw [hfwd] at hok
    simp only [Except.ok.injEq] at hok
    have hmk : m.length = k := hwf.1
    rw [hmk] at hfwd
    rcases gaussFwd_ok hc k 0 m T (by omega) hwf (tri_zero m) hfwd with ⟨h1, h2, h3, h4⟩
    constructor
    · intro v hv hsol
      have hsolT : IsSol T v := h4 v hsol
      have hTlen : T.length = k := h1.1
      rcases backSubAux_spec hc h1 h2 (k - 1) 1 T le_rfl (by omega) h1
          (h2.2.1 0 hk) (fun j hj1 hj2 => by omega) (fun i _ _ => rfl) with ⟨g1, g2, g3, g4⟩
      have hbs : backSub (fieldOps K) T = backSubAux (fieldOps K) (k - 1) 1 T := by
        unfold backSub
        rw [hTlen]
      have hsolf : IsSol (backSubAux (fieldOps K) (k - 1) 1 T) v := g4 v hsolT
      have hdot := hsolf 0 (by rw [g1.1]; omega)
      have hrow0len : (gRow (backSubAux (fieldOps K) (k - 1) 1 T) 0).length = k + 1 :=
        g1.rowLen hk
      have hzrow : ∀ j, 1 ≤ j → j < k →
          (gRow (backSubAux (fieldOps K) (k - 1) 1 T) 0).getD j 0 = 0 := by
        intro j hj1 hj2
        have := g3 j hj1 hj2
        unfold gEl at this
        exact this
      have h1row : (gRow (backSubAux (fieldOps K) (k - 1) 1 T) 0).getD 0 0 = 1 := by
        have := g2
        unfold gEl at this
        exact this
      have hlhs : dotv (gRow (backSubAux (fieldOps K) (k - 1) 1 T) 0) v = v.getD 0 0 :=
        dotv_unit_row _ v hrow0len hv hk h1row hzrow
      rw [hv, hlhs] at hdot
      rw [← hok, hbs]
      unfold gEl
      exact hdot.symm
    · intro v hv hker
      exact tri_ker_trivial h1 h2 v hv ((h3 v).mpr hker)

theorem gauss_err_spec [Field K] [DecidableEq K] (hc : ∀ x : K, x + x = 0)
    {k : Nat} {m : List (List K)} {e : GoErr} (hwf : WF k m)
    (herr : gauss (fieldOps K) m = .error e) :
    e = .singular ∧ ∃ v, v.length = k ∧ IsKer m v ∧ ∃ j, v.getD j 0 ≠ 0 := by
  unfold gauss at herr
  cases hfwd : gaussFwdAux (fieldOps K) m.length 0 m with
  | error e2 =>
    rw [hfwd] at herr
    simp only [Except.error.injEq] at herr
    subst herr
    have hmk : m.length = k := hwf.1
    rw [hmk] at hfwd
    exact gaussFwd_err hc k 0 m e2 (by omega) hwf (tri_zero m) hfwd
  | ok T => rw [hfwd] at herr; simp at herr

theorem gauss_ok_of_ker_trivial [Field K] [DecidableEq K] (hc : ∀ x : K, x + x = 0)
    {k : Nat} {m : List (List K)} (hwf : WF k m)
    (hker : ∀ v, v.length = k → IsKer m v → ∀ j, v.getD j 0 = 0) :
    ∃ mf, gauss (fieldOps K) m = .ok mf := by
  cases h : gauss (fieldOps K) m with
  | ok mf => exact ⟨mf, rfl⟩
  | error e =>
    rcases gauss_err_spec hc hwf h with ⟨_, v, hv1, hv2, j, hv3⟩
    exact absurd (hker v hv1 hv2 j) hv3

/-!  ### The polynomial bridge -/

theorem coeff_polyOf [Field K] (v : List K) (j : Nat) :
    (polyOf v).coeff j = v.getD j 0 := by
  induction v generalizing j with
  | nil => simp [polyOf]
  | cons a as ih =>
    cases j with
    | zero =>
      simp [polyOf, Polynomial.mul_coeff_zero]
    | succ i =>
      simp [polyOf, Polynomial.coeff_X_mul, ih i, Polynomial.coeff_C]

theorem degree_polyOf_lt [Field K] (v : List K) :
    (polyOf v).degree < (v.length : WithBot Nat) := by
  induction v with
  | nil =>
    simp only [polyOf, Polynomial.degree_zero, List.length_nil, Nat.cast_zero]
    exact WithBot.bot_lt_coe 0
  | cons a as ih =>
    simp only [polyOf, List.length_cons]
    apply lt_of_le_of_lt (Polynomial.degree_add_le _ _)
    rw [sup_lt_iff]
    constructor
    · apply lt_of_le_of_lt Polynomial.degree_C_le
      have h0 : ((0 : Nat) : WithBot Nat) < ((as.length + 1 : Nat) : WithBot Nat) :=
        WithBot.coe_lt_coe.mpr (Nat.succ_pos as.length)
      simpa using h0
    · apply lt_of_le_of_lt (Polynomial.degree_mul_le _ _)
      have h1 : (Polynomial.X : Polynomial K).degree + (polyOf as).degree ≤
          1 + (polyOf as).degree :=
        add_le_add_right Polynomial.degree_X_le _
      apply lt_of_le_of_lt h1
      have h2 : (1 : WithBot Nat) + (polyOf as).degree < 1 + (as.length : WithBot Nat) :=
        WithBot.add_lt_add_left (by simp) ih
      apply lt_of_lt_of_le h2
      have h3 : (1 : WithBot Nat) + (as.length : WithBot Nat) =
          ((as.length + 1 : Nat) : WithBot Nat) := by
        push_cast
        ring
      rw [h3]

theorem eval_polyOf [Field K] (v : List K) (x : K) :
    (polyOf v).eval x = dotv (pows (fieldOps K) v.length x) v := by
  induction v with
  | nil => simp [polyOf]
  | cons a as ih =>
    simp only [polyOf, Polynomial.eval_add, Polynomial.eval_C, Polynomial.eval_mul,
      Polynomial.eval_X, List.length_cons]
    unfold pows powsFrom
    rw [dotv_cons, one_mul]
    have hmul1 : (fieldOps K).mul 1 x = x * 1 := by
      rw [fieldOps_mul, one_mul, mul_one]
    rw [hmul1, dotv_powsFrom_smul]
    unfold pows at ih
    rw [← ih]

theorem polyOf_coeffList [Field K] (p : Polynomial K) (k : Nat)
    (hdeg : p.degree < (k : WithBot Nat)) : polyOf (coeffList p k) = p := by
  apply Polynomial.ext
  intro j
  rw [coeff_polyOf]
  unfold coeffList
  by_cases hj : j < k
  · rw [List.getD_eq_getElem?_getD, List.getElem?_eq_getElem (by simpa using hj)]
    simp
  · rw [getD_of_le _ _ _ (by simpa using Nat.le_of_not_lt hj)]
    exact (Polynomial.coeff_eq_zero_of_degree_lt
      (lt_of_lt_of_le hdeg (by exact_mod_cast Nat.le_of_not_lt hj))).symm

theorem coeffList_length [Field K] (p : Polynomial K) (k : Nat) :
    (coeffList p k).length = k := by
  simp [coeffList]

theorem coeffList_getD [Field K] (p : Polynomial K) (k j : Nat) (hj : j < k) :
    (coeffList p k).getD j 0 = p.coeff j := by
  unfold coeffList
  rw [List.getD_eq_getElem?_getD, List.getElem?_eq_getElem (by simpa using hj)]
  simp

/-!  ### The system built by `combineSingle` -/

theorem vanMat_WF [Field K] (f : GFOps K) (xvals yvals : List K)
    (hlen : yvals.length = xvals.length) : WF xvals.length (vanMat f xvals yvals) := by
  constructor
  · rw [vanMat, List.length_zipWith, hlen]
    simp
  · intro row hrow
    rcases List.mem_iff_getElem.mp hrow with ⟨i, hi, hrfl⟩
    simp only [vanMat] at hrfl
    rw [← hrfl, List.getElem_zipWith, List.length_append, pows_length]
    simp

theorem vanMat_row [Field K] (f : GFOps K) (xvals yvals : List K)
    (hlen : yvals.length = xvals.length) (i : Nat) (hi : i < xvals.length) :
    gRow (vanMat f xvals yvals) i =
      pows f xvals.length (xvals.getD i 0) ++ [yvals.getD i 0] := by
  have hvlen : (vanMat f xvals yvals).length = xvals.length := by
    rw [vanMat, List.length_zipWith, hlen]
    simp
  unfold gRow
  rw [List.getD_eq_getElem?_getD, List.getElem?_eq_getElem (by omega)]
  simp only [vanMat]
  rw [List.getElem_zipWith]
  rw [List.getD_eq_getElem?_getD, List.getElem?_eq_getElem (by omega : i < xvals.length),
    List.getD_eq_getElem?_getD, List.getElem?_eq_getElem (by omega : i < yvals.length)]
  rfl

theorem vanMat_dot [Field K] {xvals yvals : List K}
    (hlen : yvals.length = xvals.length) {i : Nat} (hi : i < xvals.length)
    {v : List K} (hv : v.length = xvals.length) :
    dotv (gRow (vanMat (fieldOps K) xvals yvals) i) v = (polyOf v).eval (xvals.getD i 0) := by
  rw [vanMat_row _ xvals yvals hlen i hi, dotv_append_right _ _ _ (by simp [hv]),
    eval_polyOf, hv]

theorem vanMat_aug [Field K] {xvals yvals : List K}
    (hlen : yvals.length = xvals.length) {i : Nat} (hi : i < xvals.length)
    {v : List K} (hv : v.length = xvals.length) :
    (gRow (vanMat (fieldOps K) xvals yvals) i).getD v.length 0 = yvals.getD i 0 := by
  rw [vanMat_row _ xvals yvals hlen i hi, hv, List.getD_eq_getElem?_getD,
    List.getElem?_append_right (by simp), pows_length]
  simp

theorem vanMat_ker_trivial [Field K] [DecidableEq K] {xvals yvals : List K}
    (hlen : yvals.length = xvals.length) (hnodup : xvals.Nodup) :
    ∀ v, v.length = xvals.length → IsKer (vanMat (fieldOps K) xvals yvals) v →
      ∀ j, v.getD j 0 = 0 := by
  intro v hv hker j
  have hvlen : (vanMat (fieldOps K) xvals yvals).length = xvals.length :=
    (vanMat_WF (fieldOps K) xvals yvals hlen).1
  have hp : polyOf v = 0 := by
    apply Polynomial.eq_zero_of_degree_lt_of_eval_finset_eq_zero xvals.toFinset
    · rw [List.toFinset_card_of_nodup hnodup, ← hv]
      exact degree_polyOf_lt v
    · intro x hx
      rcases List.mem_iff_getElem.mp (List.mem_toFinset.mp hx) with ⟨i, hi, hrfl⟩
      have hd := hker i (hvlen ▸ hi)
      rw [vanMat_dot hlen hi hv] at hd
      have : xvals.getD i 0 = x := by
        rw [List.getD_eq_getElem?_getD, List.getElem?_eq_getElem hi]
        exact hrfl
      rwa [this] at hd
  have := coeff_polyOf v j
  rw [hp] at this
  simpa using this.symm

theorem vanMat_sol_of_interpolant [Field K] {xvals yvals : List K}
    (hlen : yvals.length = xvals.length) (p : Polynomial K)
    (hdeg : p.degree < (xvals.length : WithBot Nat))
    (heval : ∀ i, i < xvals.length → p.eval (xvals.getD i 0) = yvals.getD i 0) :
    IsSol (vanMat (fieldOps K) xvals yvals) (coeffList p xvals.length) := by
  intro i hi
  have hvlen : (vanMat (fieldOps K) xvals yvals).length = xvals.length :=
    (vanMat_WF (fieldOps K) xvals yvals hlen).1
  rw [hvlen] at hi
  have hcl : (coeffList p xvals.length).length = xvals.length := coeffList_length p _
  rw [vanMat_dot hlen hi hcl, vanMat_aug hlen hi hcl, polyOf_coeffList p _ hdeg]
  exact heval i hi

/-!  ### `combineSingle` -/

theorem combineSingle_eq [Zero K] [One K] [DecidableEq K] (f : GFOps K)
    (xvals yvals : List K) :
    combineSingle f xvals yvals =
      (match gauss f (vanMat f xvals yvals) with
       | .error e => .error e
       | .ok m2 => .ok (gEl m2 0 xvals.length)) := rfl

theorem combineSingle_interp [Field K] [DecidableEq K] (hc : ∀ x : K, x + x = 0)
    {xvals yvals : List K} (hlen : yvals.length = xvals.length) (hk : 1 ≤ xvals.length)
    (hnodup : xvals.Nodup) (p : Polynomial K)
    (hdeg : p.degree < (xvals.length : WithBot Nat))
    (heval : ∀ i, i < xvals.length → p.eval (xvals.getD i 0) = yvals.getD i 0) :
    combineSingle (fieldOps K) xvals yvals = .ok (p.coeff 0) := by
  have hwf := vanMat_WF (fieldOps K) xvals yvals hlen
  have hker := vanMat_ker_trivial hlen hnodup
  rcases gauss_ok_of_ker_trivial hc hwf hker with ⟨mf, hmf⟩
  have hsol := vanMat_sol_of_interpolant hlen p hdeg heval
  have hval := (gauss_ok_spec hc hk hwf hmf).1 (coeffList p xvals.length)
    (coeffList_length p _) hsol
  rw [combineSingle_eq, hmf]
  show Except.ok (gEl mf 0 xvals.length) = Except.ok (p.coeff 0)
  rw [hval, coeffList_getD p _ 0 hk]

theorem combineSingle_dup [Field K] [DecidableEq K] (hc : ∀ x : K, x + x = 0)
    {xvals yvals : List K} (hlen : yvals.length = xvals.length)
    (hdup : ¬ xvals.Nodup) :
    combineSingle (fieldOps K) xvals yvals = .error .singular := by
  have hk : 1 ≤ xvals.length := by
    rcases xvals with _ | ⟨x, xs⟩
    · exact absurd List.nodup_nil hdup
    · simp
  have hwf := vanMat_WF (fieldOps K) xvals yvals hlen
  set P : Polynomial K := ∏ x ∈ xvals.toFinset, (Polynomial.X - Polynomial.C x) with hP
  have hmonic : P.Monic :=
    Polynomial.monic_prod_of_monic _ _ (fun x _ => Polynomial.monic_X_sub_C x)
  have hPne : P ≠ 0 := hmonic.ne_zero
  have hdeg_card : P.natDegree = xvals.toFinset.card := by
    rw [hP, Polynomial.natDegree_prod _ _
      (fun i _ => (Polynomial.monic_X_sub_C i).ne_zero)]
    simp [Polynomial.natDegree_X_sub_C]
  have hcard : xvals.toFinset.card < xvals.length := by
    rw [List.card_toFinset]
    have h1 : xvals.dedup.length ≤ xvals.length :=
      List.Sublist.length_le (List.dedup_sublist xvals)
    rcases Nat.lt_or_ge xvals.dedup.length xvals.length with h2 | h2
    · exact h2
    · exfalso
      have heq : xvals.dedup = xvals :=
        List.Sublist.eq_of_length (List.dedup_sublist xvals) (by omega)
      exact hdup (heq ▸ List.nodup_dedup xvals)
  have hdeg : P.degree < (xvals.length : WithBot Nat) := by
    rw [Polynomial.degree_eq_natDegree hPne]
    exact_mod_cast hdeg_card ▸ hcard
  have hvlen : (coeffList P xvals.length).length = xvals.length := coeffList_length P _
  have hker : IsKer (vanMat (fieldOps K) xvals yvals) (coeffList P xvals.length) := by
    intro i hi
    rw [hwf.1] at hi
    rw [vanMat_dot hlen hi hvlen, polyOf_coeffList P _ hdeg, hP, Polynomial.eval_prod]
    have hmem : xvals.getD i 0 ∈ xvals.toFinset := by
      rw [List.mem_toFinset, List.getD_eq_getElem?_getD, List.getElem?_eq_getElem hi]
      exact List.getElem_mem hi
    apply Finset.prod_eq_zero hmem
    simp
  have hnz : (coeffList P xvals.length).getD P.natDegree 0 ≠ 0 := by
    rw [coeffList_getD P _ _ (by omega : P.natDegree < xvals.length),
      hmonic.coeff_natDegree]
    exact one_ne_zero
  cases hg : gauss (fieldOps K) (vanMat (fieldOps K) xvals yvals) with
  | ok mf =>
    exfalso
    exact hnz ((gauss_ok_spec hc hk hwf hg).2 _ hvlen hker P.natDegree)
  | error e =>
    rcases gauss_err_spec hc hwf hg with ⟨he, _⟩
    subst he
    rw [combineSingle_eq, hg]

/-!  ### Replacing the field capability: `Inv` is only applied to non-zeros -/

theorem mapIdxA_congr (g1 g2 : Nat → α → β) (s : Nat) (l : List α)
    (h : ∀ i a, g1 i a = g2 i a) : mapIdxA g1 s l = mapIdxA g2 s l := by
  induction l generalizing s with
  | nil => rfl
  | cons a as ih => simp [mapIdxA, h, ih]

theorem powsFrom_ext (f g : GFOps K) (hmul : f.mul = g.mul) (x : K) :
    ∀ n p, powsFrom f x n p = powsFrom g x n p := by
  intro n
  induction n with
  | zero => intro p; rfl
  | succ s ih => intro p; simp [powsFrom, hmul, ih]

theorem pows_ext [One K] (f g : GFOps K) (hmul : f.mul = g.mul) (n : Nat) (x : K) :
    pows f n x = pows g n x := powsFrom_ext f g hmul x n 1

theorem evalPolyAux_ext (f g : GFOps K) (hadd : f.add = g.add) (hmul : f.mul = g.mul)
    (x : K) : ∀ cs p r, evalPolyAux f x cs p r = evalPolyAux g x cs p r := by
  intro cs
  induction cs with
  | nil => intro p r; rfl
  | cons c cc ih => intro p r; simp [evalPolyAux, hadd, hmul, ih]

theorem evalPoly_ext [Zero K] [One K] (f g : GFOps K) (hadd : f.add = g.add)
    (hmul : f.mul = g.mul) (cs : List K) (x : K) :
    evalPoly f cs x = evalPoly g cs x := evalPolyAux_ext f g hadd hmul x cs 1 0

theorem scalePoly_ext (f g : GFOps K) (hmul : f.mul = g.mul) (row : List K) (x : K) :
    scalePoly f row x = scalePoly g row x := by
  simp [scalePoly, hmul]

theorem addPoly_ext (f g : GFOps K) (hadd : f.add = g.add) (a b : List K) :
    addPoly f a b = addPoly g a b := by
  simp [addPoly, hadd]

theorem scaleStep_ext [Zero K] [DecidableEq K] (f g : GFOps K) (hmul : f.mul = g.mul)
    (hinv : ∀ x, x ≠ 0 → f.inv x = g.inv x) (r : Nat) (m : List (List K)) :
    scaleStep f r m = scaleStep g r m := by
  unfold scaleStep
  apply mapIdxA_congr
  intro i row
  by_cases hb : r ≤ i ∧ row.getD r 0 ≠ 0
  · rw [if_pos hb, if_pos hb, hinv _ hb.2, scalePoly_ext f g hmul]
  · rw [if_neg hb, if_neg hb]

theorem elimStep_ext [Zero K] [DecidableEq K] (f g : GFOps K) (hadd : f.add = g.add)
    (r : Nat) (m : List (List K)) : elimStep f r m = elimStep g r m := by
  unfold elimStep
  apply mapIdxA_congr
  intro i row
  by_cases hb : r + 1 ≤ i ∧ row.getD r 0 ≠ 0
  · rw [if_pos hb, if_pos hb, addPoly_ext f g hadd]
  · rw [if_neg hb, if_neg hb]

theorem gaussStep_ext [Zero K] [One K] [DecidableEq K] (f g : GFOps K)
    (hadd : f.add = g.add) (hmul : f.mul = g.mul)
    (hinv : ∀ x, x ≠ 0 → f.inv x = g.inv x) (m : List (List K)) (r : Nat) :
    gaussStep f m r = gaussStep g m r := by
  unfold gaussStep
  by_cases hpz : gEl m r r = 0
  · simp only [hpz, if_pos, if_true]
    by_cases hfn : findNonzero m r = -1
    · rw [if_pos hfn]
    · rw [if_neg hfn]
      simp only []
      rw [elimStep_ext f g hadd, scaleStep_ext f g hmul hinv]
  · simp only [hpz, if_neg, if_false]
    rw [elimStep_ext f g hadd, scaleStep_ext f g hmul hinv]

theorem gaussFwdAux_ext [Zero K] [One K] [DecidableEq K] (f g : GFOps K)
    (hadd : f.add = g.add) (hmul : f.mul = g.mul)
    (hinv : ∀ x, x ≠ 0 → f.inv x = g.inv x) :
    ∀ steps r m, gaussFwdAux f steps r m = gaussFwdAux g steps r m := by
  intro steps
  induction steps with
  | zero => intro r m; rfl
  | succ s ih =>
    intro r m
    unfold gaussFwdAux
    rw [gaussStep_ext f g hadd hmul hinv]
    cases gaussStep g m r with
    | error e => rfl
    | ok m2 => exact ih (r + 1) m2

theorem backSubAux_ext [Zero K] (f g : GFOps K) (hadd : f.add = g.add)
    (hmul : f.mul = g.mul) :
    ∀ steps r m, backSubAux f steps r m = backSubAux g steps r m := by
  intro steps
  induction steps with
  | zero => intro r m; rfl
  | succ s ih =>
    intro r m
    have hf : backSubAux f (s + 1) r m = backSubAux f s (r + 1)
        ((m.set r (scalePoly f (gRow m r) (gEl m 0 r))).set 0
          (addPoly f (gRow m 0) (scalePoly f (gRow m r) (gEl m 0 r)))) := rfl
    have hg2 : backSubAux g (s + 1) r m = backSubAux g s (r + 1)
        ((m.set r (scalePoly g (gRow m r) (gEl m 0 r))).set 0
          (addPoly g (gRow m 0) (scalePoly g (gRow m r) (gEl m 0 r)))) := rfl
    rw [hf, hg2, scalePoly_ext f g hmul, addPoly_ext f g hadd, ih]

theorem gauss_ext [Zero K] [One K] [DecidableEq K] (f g : GFOps K)
    (hadd : f.add = g.add) (hmul : f.mul = g.mul)
    (hinv : ∀ x, x ≠ 0 → f.inv x = g.inv x) (m : List (List K)) :
    gauss f m = gauss g m := by
  unfold gauss
  rw [gaussFwdAux_ext f g hadd hmul hinv]
  cases gaussFwdAux g m.length 0 m with
  | error e => rfl
  | ok m2 =>
    show Except.ok (backSubAux f (m2.length - 1) 1 m2) =
      Except.ok (backSubAux g (m2.length - 1) 1 m2)
    rw [backSubAux_ext f g hadd hmul]

theorem combineSingle_ext [Zero K] [One K] [DecidableEq K] (f g : GFOps K)
    (hadd : f.add = g.add) (hmul : f.mul = g.mul)
    (hinv : ∀ x, x ≠ 0 → f.inv x = g.inv x) (xvals yvals : List K) :
    combineSingle f xvals yvals = combineSingle g xvals yvals := by
  rw [combineSingle_eq, combineSingle_eq]
  have hvm : vanMat f xvals yvals = vanMat g xvals yvals := by
    unfold vanMat
    congr 1
    funext x y
    rw [pows_ext f g hmul]
  rw [hvm, gauss_ext f g hadd hmul hinv]

theorem combineLoop_ext [Zero K] [One K] [DecidableEq K] (f g : GFOps K)
    (hadd : f.add = g.add) (hmul : f.mul = g.mul)
    (hinv : ∀ x, x ≠ 0 → f.inv x = g.inv x) (shares : List (List K)) (xvals : List K) :
    ∀ cs, combineLoop f shares xvals cs = combineLoop g shares xvals cs := by
  intro cs
  induction cs with
  | nil => rfl
  | cons c cc ih =>
    unfold combineLoop
    rw [combineSingle_ext f g hadd hmul hinv]
    cases combineSingle g xvals (shares.map fun s => s.getD c 0) with
    | error e => rfl
    | ok sec => rw [ih]

theorem combine_cons [Zero K] [One K] [DecidableEq K] (f : GFOps K) (s0 : List K)
    (rest : List (List K)) :
    combine f (s0 :: rest) =
      if rest.any (fun s => s.length ≠ s0.length) then .err .inconsistentLen
      else if s0.length = 0 then .crashed
      else match combineLoop f (s0 :: rest) ((s0 :: rest).map fun s => s.getD 0 0)
          (List.range' 1 (s0.length - 1)) with
        | .error e => .err e
        | .ok secrets => .ok secrets := rfl

theorem combine_ext [Zero K] [One K] [DecidableEq K] (f g : GFOps K)
    (hadd : f.add = g.add) (hmul : f.mul = g.mul)
    (hinv : ∀ x, x ≠ 0 → f.inv x = g.inv x) (shares : List (List K)) :
    combine f shares = combine g shares := by
  cases shares with
  | nil => rfl
  | cons s0 rest =>
    rw [combine_cons, combine_cons]
    by_cases h1 : rest.any (fun s => s.length ≠ s0.length)
    · rw [if_pos h1, if_pos h1]
    · rw [if_neg h1, if_neg h1]
      by_cases h2 : s0.length = 0
      · rw [if_pos h2, if_pos h2]
      · rw [if_neg h2, if_neg h2]
        rw [combineLoop_ext f g hadd hmul hinv]

theorem splitSingle_ext [Zero K] [One K] (f g : GFOps K) (hadd : f.add = g.add)
    (hmul : f.mul = g.mul) (stream : List K) (threshold : Nat) (xvals : List K)
    (sec : K) : splitSingle f stream threshold xvals sec =
      splitSingle g stream threshold xvals sec := by
  unfold splitSingle
  by_cases h : threshold - 1 ≤ stream.length
  · rw [if_pos h, if_pos h]
    congr 1
    refine Prod.ext ?_ rfl
    simp only []
    congr 1
    funext x
    rw [evalPoly_ext f g hadd hmul]
  · rw [if_neg h, if_neg h]

theorem splitLoop_ext [Zero K] [One K] (f g : GFOps K) (hadd : f.add = g.add)
    (hmul : f.mul = g.mul) (threshold : Nat) (xvals : List K) :
    ∀ ws stream, splitLoop f threshold xvals ws stream =
      splitLoop g threshold xvals ws stream := by
  intro ws
  induction ws with
  | nil => intro stream; rfl
  | cons w ww ih =>
    intro stream
    unfold splitLoop
    rw [splitSingle_ext f g hadd hmul]
    cases splitSingle g stream threshold xvals w with
    | none => rfl
    | some zr =>
      obtain ⟨z, rest⟩ := zr
      show (match splitLoop f threshold xvals ww rest with
        | none => none
        | some zs => some (z :: zs)) =
        (match splitLoop g threshold xvals ww rest with
        | none => none
        | some zs => some (z :: zs))
      rw [ih rest]

theorem split_ext [Zero K] [One K] [DecidableEq K] (f g : GFOps K)
    (hadd : f.add = g.add) (hmul : f.mul = g.mul) (stream : List K)
    (threshold n : Int) (secret : List K) :
    split f stream threshold n secret = split g stream threshold n secret := by
  unfold split
  by_cases h1 : threshold > n
  · simp [h1]
  · simp only [h1, if_false]
    by_cases h2 : threshold < 1
    · simp [h2]
    · simp only [h2, if_false]
      by_cases h3 : n < 1
      · simp [h3]
      · simp only [h3, if_false]
        by_cases h4 : secret.length = 0
        · simp [h4]
        · simp only [h4, if_false]
          cases distinctXes stream n.toNat with
          | none => rfl
          | some xr =>
            obtain ⟨xv, rest⟩ := xr
            show (match splitLoop f threshold.toNat xv secret rest with
              | none => Except.error GoErr.randErr
              | some zs => Except.ok (assembleShares xv zs)) =
              (match splitLoop g threshold.toNat xv secret rest with
              | none => Except.error GoErr.randErr
              | some zs => Except.ok (assembleShares xv zs))
            rw [splitLoop_ext f g hadd hmul]

/-!  ### What a successful `split` produces -/

theorem getD_eq_getElem (l : List α) (j : Nat) (d : α) (h : j < l.length) :
    l.getD j d = l[j] := by
  rw [List.getD_eq_getElem?_getD, List.getElem?_eq_getElem h]
  rfl

theorem getD_map_in (l : List α) (h : α → β) (j : Nat) (d : β) (e : α)
    (hj : j < l.length) : (l.map h).getD j d = h (l.getD j e) := by
  rw [List.getD_eq_getElem?_getD, List.getElem?_map, List.getElem?_eq_getElem hj,
    List.getD_eq_getElem?_getD, List.getElem?_eq_getElem hj]
  rfl

theorem forall₂_getD {α β : Type} {R : α → β → Prop} (da : α) (db : β) :
    ∀ {ws : List α} {ps : List β}, List.Forall₂ R ws ps →
      ∀ i, i < ws.length → R (ws.getD i da) (ps.getD i db) := by
  intro ws ps h
  induction h with
  | nil => intro i hi; simp at hi
  | cons hr _ ih =>
    intro i hi
    cases i with
    | zero => exact hr
    | succ j => exact ih j (by simpa using hi)

theorem distinctXesAux_spec [Zero K] [DecidableEq K] :
    ∀ (stream : List K) (need : Nat) (acc out rest : List K),
      distinctXesAux stream need acc = some (out, rest) →
      acc.Nodup → (∀ x ∈ acc, x ≠ 0) →
      out.Nodup ∧ (∀ x ∈ out, x ≠ 0) ∧ out.length = acc.length + need := by
  intro stream
  induction stream with
  | nil =>
    intro need acc out rest h ha hz
    cases need with
    | zero =>
      unfold distinctXesAux at h
      simp only [Option.some.injEq, Prod.mk.injEq] at h
      rw [← h.1]
      exact ⟨ha, hz, by omega⟩
    | succ nd =>
      unfold distinctXesAux at h
      simp at h
  | cons x s ih =>
    intro need acc out rest h ha hz
    cases need with
    | zero =>
      unfold distinctXesAux at h
      simp only [Option.some.injEq, Prod.mk.injEq] at h
      rw [← h.1]
      exact ⟨ha, hz, by omega⟩
    | succ nd =>
      unfold distinctXesAux at h
      by_cases hb : x = 0 ∨ x ∈ acc
      · rw [if_pos hb] at h
        exact ih (nd + 1) acc out rest h ha hz
      · rw [if_neg hb] at h
        push_neg at hb
        have ha2 : (acc ++ [x]).Nodup := by
          rw [List.nodup_append]
          exact ⟨ha, List.nodup_singleton x, by simpa using fun hmem => hb.2 hmem⟩
        have hz2 : ∀ y ∈ acc ++ [x], y ≠ 0 := by
          intro y hy
          rcases List.mem_append.mp hy with hy2 | hy2
          · exact hz y hy2
          · rw [List.mem_singleton.mp hy2]
            exact hb.1
        rcases ih nd (acc ++ [x]) out rest h ha2 hz2 with ⟨g1, g2, g3⟩
        refine ⟨g1, g2, ?_⟩
        rw [g3, List.length_append]
        simp
        omega

theorem distinctXes_spec [Zero K] [DecidableEq K] {stream : List K} {n : Nat}
    {xv rest : List K} (h : distinctXes stream n = some (xv, rest)) :
    xv.Nodup ∧ (∀ x ∈ xv, x ≠ 0) ∧ xv.length = n := by
  have := distinctXesAux_spec stream n [] xv rest h List.nodup_nil (by simp)
  simpa using this

theorem splitLoop_spec [Zero K] [One K] (f : GFOps K) (T : Nat) (hT : 1 ≤ T)
    (xvals : List K) :
    ∀ (ws stream : List K) (zs : List (List K)),
      splitLoop f T xvals ws stream = some zs →
      ∃ polys : List (List K),
        List.Forall₂ (fun w p => p.length = T ∧ p.getD 0 0 = w) ws polys ∧
        zs = polys.map (fun p => xvals.map (evalPoly f p)) := by
  intro ws
  induction ws with
  | nil =>
    intro stream zs h
    unfold splitLoop at h
    simp only [Option.some.injEq] at h
    exact ⟨[], List.Forall₂.nil, by rw [← h]; rfl⟩
  | cons w ww ih =>
    intro stream zs h
    unfold splitLoop at h
    cases hs : splitSingle f stream T xvals w with
    | none => rw [hs] at h; simp at h
    | some zr =>
      rw [hs] at h
      obtain ⟨z, rest⟩ := zr
      have h2 : (match splitLoop f T xvals ww rest with
        | none => none
        | some zs => some (z :: zs)) = some zs := h
      clear h
      cases hl : splitLoop f T xvals ww rest with
      | none => rw [hl] at h2; simp at h2
      | some zz =>
        rw [hl] at h2
        simp only [Option.some.injEq] at h2
        rcases ih rest zz hl with ⟨polys, hfa, hzz⟩
        unfold splitSingle at hs
        by_cases hlen : T - 1 ≤ stream.length
        · rw [if_pos hlen] at hs
          simp only [Option.some.injEq, Prod.mk.injEq] at hs
          refine ⟨(w :: stream.take (T - 1)) :: polys, ?_, ?_⟩
          · refine List.Forall₂.cons ⟨?_, rfl⟩ hfa
            simp only [List.length_cons, List.length_take]
            omega
          · rw [← h2, ← hs.1, hzz]
            rfl
        · rw [if_neg hlen] at hs
          simp at hs
theorem assembleShares_eq_map [Zero K] [One K] (f : GFOps K) (xvals : List K)
    (polys : List (List K)) :
    assembleShares xvals (polys.map (fun p => xvals.map (evalPoly f p))) =
      xvals.map (fun x => x :: polys.map (fun p => evalPoly f p x)) := by
  have hlen : (assembleShares xvals (polys.map (fun p => xvals.map (evalPoly f p)))).length
      = xvals.length := by
    unfold assembleShares
    rw [mapIdxA_length]
  apply List.ext_getElem (by rw [hlen, List.length_map])
  intro j h1 h2
  have hj : j < xvals.length := by rw [hlen] at h1; exact h1
  rw [← getD_eq_getElem _ j [] h1, ← getD_eq_getElem _ j [] h2]
  unfold assembleShares
  rw [mapIdxA_getD _ 0 xvals j [] 0 hj]
  rw [getD_map_in xvals _ j [] 0 hj]
  simp only [Nat.zero_add, List.map_map]
  congr 1
  apply List.map_congr_left
  intro p hp
  simp only [Function.comp_apply]
  rw [getD_map_in xvals _ j 0 0 hj]

theorem split_ok_spec [Zero K] [One K] [DecidableEq K] (f : GFOps K)
    {stream : List K} {t n : Int} {secret : List K} {shares : List (List K)}
    (hok : split f stream t n secret = .ok shares) :
    1 ≤ t ∧ t ≤ n ∧ 1 ≤ secret.length ∧
    ∃ (xvals : List K) (polys : List (List K)),
      xvals.length = n.toNat ∧ xvals.Nodup ∧ (∀ x ∈ xvals, x ≠ 0) ∧
      List.Forall₂ (fun w p => p.length = t.toNat ∧ p.getD 0 0 = w) secret polys ∧
      shares = xvals.map (fun x => x :: polys.map (fun p => evalPoly f p x)) := by
  unfold split at hok
  by_cases h1 : t > n
  · rw [if_pos h1] at hok; simp at hok
  · rw [if_neg h1] at hok
    by_cases h2 : t < 1
    · rw [if_pos h2] at hok; simp at hok
    · rw [if_neg h2] at hok
      by_cases h3 : n < 1
      · rw [if_pos h3] at hok; simp at hok
      · rw [if_neg h3] at hok
        by_cases h4 : secret.length = 0
        · rw [if_pos h4] at hok; simp at hok
        · rw [if_neg h4] at hok
          refine ⟨by omega, by omega, by omega, ?_⟩
          cases hdx : distinctXes stream n.toNat with
          | none => rw [hdx] at hok; simp at hok
          | some xr =>
            rw [hdx] at hok
            obtain ⟨xv, rest⟩ := xr
            have hok2 : (match splitLoop f t.toNat xv secret rest with
              | none => Except.error GoErr.randErr
              | some zs => Except.ok (assembleShares xv zs)) = Except.ok shares := hok
            clear hok
            cases hsl : splitLoop f t.toNat xv secret rest with
            | none => rw [hsl] at hok2; simp at hok2
            | some zs =>
              rw [hsl] at hok2
              simp only [Except.ok.injEq] at hok2
              rcases distinctXes_spec hdx with ⟨d1, d2, d3⟩
              have hT : 1 ≤ t.toNat := by omega
              rcases splitLoop_spec f t.toNat hT xv secret rest zs hsl with ⟨polys, hfa, hzs⟩
              refine ⟨xv, polys, d3, d1, d2, hfa, ?_⟩
              rw [← hok2, hzs]
              exact assembleShares_eq_map f xv polys

/-!  ### Selecting a subset of shares -/

theorem subperm_map_shape [Zero K] {g : K → List K} (hg : ∀ x, (g x).getD 0 0 = x)
    {sel : List (List K)} {xvals : List K} (hsub : List.Subperm sel (xvals.map g)) :
    ∃ xs2 : List K, List.Subperm xs2 xvals ∧ sel = xs2.map g := by
  rcases hsub with ⟨l, hperm, hsubl⟩
  rcases List.sublist_map_iff.mp hsubl with ⟨u, hu, hlu⟩
  have hmem : ∀ s ∈ sel, g (s.getD 0 0) = s := by
    intro s hs
    have hsl : s ∈ l := hperm.mem_iff.mpr hs
    rw [hlu] at hsl
    rcases List.mem_map.mp hsl with ⟨x, _, hgx⟩
    rw [← hgx, hg x]
  have h1 : List.Perm (sel.map (fun s => s.getD 0 0)) (l.map (fun s => s.getD 0 0)) :=
    (hperm.symm).map _
  have h2 : l.map (fun s => s.getD 0 0) = u := by
    rw [hlu, List.map_map]
    have hcg : ∀ x ∈ u, ((fun s => s.getD 0 0) ∘ g) x = id x := by
      intro x _
      simp only [Function.comp_apply, id_eq]
      exact hg x
    rw [List.map_congr_left hcg, List.map_id]
  rw [h2] at h1
  refine ⟨sel.map (fun s => s.getD 0 0), ⟨u, h1.symm, hu⟩, ?_⟩
  rw [List.map_map]
  have hcg2 : ∀ s ∈ sel, (g ∘ fun s => s.getD 0 0) s = id s := by
    intro s hs
    simp only [Function.comp_apply, id_eq]
    exact hmem s hs
  rw [List.map_congr_left hcg2, List.map_id]

theorem map_getD_range [Zero K] (l : List K) :
    (List.range l.length).map (fun i => l.getD i (0 : K)) = l := by
  apply List.ext_getElem (by simp)
  intro j h1 h2
  rw [List.getElem_map, List.getElem_range]
  exact getD_eq_getElem l j 0 h2

theorem range'_map_getD [Zero K] (l : List K) :
    (List.range' 1 l.length).map (fun c => l.getD (c - 1) (0 : K)) = l := by
  rw [List.range'_eq_map_range, List.map_map]
  have h : ∀ i ∈ List.range l.length,
      ((fun c => l.getD (c - 1) (0 : K)) ∘ fun x => 1 + x) i = l.getD i 0 := by
    intro i _
    simp only [Function.comp_apply]
    congr 1
    omega
  rw [List.map_congr_left h, map_getD_range]

/-!  ### Combining shares produced by `split` -/

theorem combineLoop_split_ok [Field K] [DecidableEq K] (hc : ∀ x : K, x + x = 0)
    {secret : List K} {polys : List (List K)} {xs2 : List K} {T : Nat}
    (hfa : List.Forall₂ (fun w p => p.length = T ∧ p.getD 0 0 = w) secret polys)
    (hxlen : xs2.length = T) (hnodup : xs2.Nodup) (hT : 1 ≤ T) :
    ∀ cs, (∀ c ∈ cs, 1 ≤ c ∧ c ≤ secret.length) →
      combineLoop (fieldOps K)
        (xs2.map (fun x => x :: polys.map (fun p => evalPoly (fieldOps K) p x))) xs2 cs
        = .ok (cs.map (fun c => secret.getD (c - 1) 0)) := by
  have hplen : polys.length = secret.length := hfa.length_eq.symm
  intro cs
  induction cs with
  | nil => intro _; rfl
  | cons c cc ih =>
    intro hmem
    have hc1 : 1 ≤ c := (hmem c (List.mem_cons_self c cc)).1
    have hcW : c ≤ secret.length := (hmem c (List.mem_cons_self c cc)).2
    have hcp : c - 1 < polys.length := by omega
    unfold combineLoop
    have hy : (xs2.map (fun x => x :: polys.map (fun p => evalPoly (fieldOps K) p x))).map
        (fun s => s.getD c 0) =
        xs2.map (fun x => evalPoly (fieldOps K) (polys.getD (c - 1) []) x) := by
      rw [List.map_map]
      apply List.map_congr_left
      intro x _
      simp only [Function.comp_apply]
      have hcsucc : c = (c - 1) + 1 := by omega
      rw [hcsucc, List.getD_cons_succ]
      exact getD_map_in polys _ (c - 1) 0 [] hcp
    rw [hy]
    have hpoly := forall₂_getD (0 : K) ([] : List K) hfa (c - 1) (by omega)
    set p := polys.getD (c - 1) [] with hpdef
    have hsingle : combineSingle (fieldOps K) xs2
        (xs2.map (fun x => evalPoly (fieldOps K) p x)) =
        .ok ((polyOf p).coeff 0) := by
      apply combineSingle_interp hc (by simp) (by omega) hnodup
      · rw [show (xs2.length : WithBot Nat) = (p.length : WithBot Nat) by
          rw [hpoly.1, hxlen]]
        exact degree_polyOf_lt p
      · intro i hi
        rw [getD_map_in xs2 _ i 0 0 hi, eval_polyOf]
        rw [evalPoly_eq_dotv]
    rw [hsingle]
    have hrest := ih (fun cx hcx => hmem cx (List.mem_cons_of_mem c hcx))
    have hcoeff : (polyOf p).coeff 0 = secret.getD (c - 1) 0 := by
      rw [coeff_polyOf, hpoly.2]
    show (match combineLoop (fieldOps K)
        (xs2.map (fun x => x :: polys.map (fun p => evalPoly (fieldOps K) p x))) xs2 cc with
      | Except.error e => Except.error e
      | Except.ok rest => Except.ok ((polyOf p).coeff 0 :: rest))
      = Except.ok ((c :: cc).map (fun c => secret.getD (c - 1) 0))
    rw [hrest]
    show Except.ok ((polyOf p).coeff 0 :: cc.map (fun c => secret.getD (c - 1) 0))
      = Except.ok ((c :: cc).map (fun c => secret.getD (c - 1) 0))
    rw [hcoeff]
    rfl

theorem combine_split_sel [Field K] [DecidableEq K] (hc : ∀ x : K, x + x = 0)
    {secret : List K} {polys : List (List K)} {xs2 : List K} {T : Nat}
    (hfa : List.Forall₂ (fun w p => p.length = T ∧ p.getD 0 0 = w) secret polys)
    (hxlen : xs2.length = T) (hnodup : xs2.Nodup) (hT : 1 ≤ T)
    (hW : 1 ≤ secret.length) :
    combine (fieldOps K)
      (xs2.map (fun x => x :: polys.map (fun p => evalPoly (fieldOps K) p x)))
      = .ok secret := by
  have hplen : polys.length = secret.length := hfa.length_eq.symm
  cases xs2 with
  | nil => simp at hxlen; omega
  | cons x0 xs =>
    set g : K → List K := fun x => x :: polys.map (fun p => evalPoly (fieldOps K) p x)
      with hgdef
    have hglen : ∀ x : K, (g x).length = polys.length + 1 := by
      intro x
      rw [hgdef]
      simp
    rw [List.map_cons, combine_cons]
    have hany : ¬ ((xs.map g).any fun s => s.length ≠ (g x0).length) := by
      rw [List.any_eq_true]
      push_neg
      intro s hs
      rcases List.mem_map.mp hs with ⟨x, _, hgx⟩
      rw [← hgx, hglen x, hglen x0]
      simp
    rw [if_neg hany]
    have hg0len : (g x0).length = polys.length + 1 := hglen x0
    rw [if_neg (by rw [hg0len]; omega : ¬ (g x0).length = 0)]
    have hheads : (g x0 :: xs.map g).map (fun s => s.getD 0 0) = x0 :: xs := by
      rw [show (g x0 :: xs.map g) = (x0 :: xs).map g by rw [List.map_cons]]
      rw [List.map_map]
      have hcg : ∀ x ∈ x0 :: xs, ((fun s => s.getD 0 0) ∘ g) x = id x := by
        intro x _
        rw [hgdef]
        simp
      rw [List.map_congr_left hcg, List.map_id]
    rw [hheads]
    have hcols : (g x0).length - 1 = secret.length := by rw [hg0len, hplen]; omega
    rw [hcols]
    have hloop := combineLoop_split_ok hc hfa hxlen hnodup hT (List.range' 1 secret.length)
      (by intro cx hcx
          rcases List.mem_range'.mp hcx with ⟨i, hi, hrfl⟩
          omega)
    rw [show (g x0 :: xs.map g) = (x0 :: xs).map g by rw [List.map_cons]] at *
    rw [hloop]
    rw [range'_map_getD]

/-!  ### Claim theorems: the core algorithms -/

/-- C1: for every field capability implementing GF arithmetic (a field of
characteristic 2, with `Inv` agreeing with the field inverse on non-zero
elements), whenever `split threshold n secret` succeeds — which requires
`1 ≤ threshold ≤ n` and a random source supplying enough words — `combine`
applied to any `threshold`-element subset of the returned shares, in any
order, returns exactly the original secret. -/
theorem claim1_split_combine_roundtrip {K : Type} [Field K] [DecidableEq K]
    (f : GFOps K)
    (hadd : f.add = fun a b => a + b) (hmul : f.mul = fun a b => a * b)
    (hinv : ∀ x : K, x ≠ 0 → f.inv x = x⁻¹) (hchar : ∀ x : K, x + x = 0)
    (stream : List K) (t n : Int) (secret : List K) (shares sel : List (List K))
    (hsplit : split f stream t n secret = .ok shares)
    (hsel : List.Subperm sel shares) (hlen : sel.length = t.toNat) :
    combine f sel = .ok secret := by
  have hadd2 : f.add = (fieldOps K).add := hadd
  have hmul2 : f.mul = (fieldOps K).mul := hmul
  have hinv2 : ∀ x : K, x ≠ 0 → f.inv x = (fieldOps K).inv x := hinv
  rw [split_ext f (fieldOps K) hadd2 hmul2] at hsplit
  rw [combine_ext f (fieldOps K) hadd2 hmul2 hinv2]
  rcases split_ok_spec (fieldOps K) hsplit with
    ⟨ht1, htn, hW, xvals, polys, hxl, hnodup, hnz, hfa, hshape⟩
  subst hshape
  rcases subperm_map_shape
    (g := fun x => x :: polys.map (fun p => evalPoly (fieldOps K) p x))
    (fun x => rfl) hsel with ⟨xs2, hsub2, hself⟩
  subst hself
  have hxs2len : xs2.length = t.toNat := by
    rw [List.length_map] at hlen
    exact hlen
  have hxs2nodup : xs2.Nodup := by
    rcases hsub2 with ⟨l, hp, hs⟩
    exact hp.nodup_iff.mp (hnodup.sublist hs)
  have hT : 1 ≤ t.toNat := by omega
  exact combine_split_sel hchar hfa hxs2len hxs2nodup hT hW

theorem claim1_witness :
    split gf2Ops [1] 1 1 [1] = .ok [[1, 1]] ∧
    combine gf2Ops [[1, 1]] = .ok [1] := by
  have hinv : ∀ x : ZMod 2, x ≠ 0 → gf2Ops.inv x = x⁻¹ := by
    intro x hx
    fin_cases x
    · exact absurd rfl hx
    · exact inv_one.symm
  refine ⟨by decide, ?_⟩
  exact claim1_split_combine_roundtrip gf2Ops rfl rfl hinv (by decide)
    [1] 1 1 [1] [[1, 1]] [[1, 1]] (by decide) (List.Subperm.refl _) (by decide)

/-- C2: `distinctXes` only ever succeeds with pairwise-distinct, non-zero
field elements (as many as requested), and consequently the x-coordinates
(first word) of the shares produced by one successful `split` call are
pairwise distinct and non-zero. -/
theorem claim2_distinct_xes {K : Type} [Zero K] [One K] [DecidableEq K] (f : GFOps K) :
    (∀ (stream : List K) (n : Nat) (xv rest : List K),
      distinctXes stream n = some (xv, rest) →
      xv.length = n ∧ xv.Nodup ∧ (∀ x ∈ xv, x ≠ 0)) ∧
    (∀ (stream : List K) (t n : Int) (secret : List K) (shares : List (List K)),
      split f stream t n secret = .ok shares →
      (shares.map (fun s => s.getD 0 0)).Nodup ∧
        ∀ x ∈ shares.map (fun s => s.getD 0 0), x ≠ 0) := by
  constructor
  · intro stream n xv rest h
    rcases distinctXes_spec h with ⟨h1, h2, h3⟩
    exact ⟨h3, h1, h2⟩
  · intro stream t n secret shares hsplit
    rcases split_ok_spec f hsplit with
      ⟨ht1, htn, hW, xvals, polys, hxl, hnodup, hnz, hfa, hshape⟩
    subst hshape
    have hheads : (xvals.map
        (fun x => x :: polys.map (fun p => evalPoly f p x))).map (fun s => s.getD 0 0)
        = xvals := by
      rw [List.map_map]
      have hcg : ∀ x ∈ xvals,
          ((fun s => s.getD 0 0) ∘ fun x => x :: polys.map (fun p => evalPoly f p x)) x
            = id x := by
        intro x _
        rfl
      rw [List.map_congr_left hcg, List.map_id]
    rw [hheads]
    exact ⟨hnodup, hnz⟩

theorem claim2_witness :
    distinctXes (K := Nat) [3, 3, 0, 5] 2 = some ([3, 5], []) ∧
    (([3, 5] : List Nat).length = 2 ∧ ([3, 5] : List Nat).Nodup ∧
      ∀ x ∈ ([3, 5] : List Nat), x ≠ 0) := by
  refine ⟨by decide, ?_⟩
  exact (claim2_distinct_xes (mkGF defaultField)).1 [3, 3, 0, 5] 2 [3, 5] [] (by decide)

/-- C8: in `gauss` (and hence in `combine`), the field capability's `Inv`
is only ever applied to non-zero elements: two capabilities agreeing on
`Add`, `Mul` and on `Inv` at every non-zero argument (but possibly
differing at the undefined `Inv 0`) produce identical results. -/
theorem claim8_inv_never_zero {K : Type} [Zero K] [One K] [DecidableEq K]
    (f g : GFOps K) (hadd : f.add = g.add) (hmul : f.mul = g.mul)
    (hinv : ∀ x, x ≠ 0 → f.inv x = g.inv x) (m shares : List (List K)) :
    gauss f m = gauss g m ∧ combine f shares = combine g shares :=
  ⟨gauss_ext f g hadd hmul hinv m, combine_ext f g hadd hmul hinv shares⟩

theorem claim8_witness :
    (∀ x : Nat, x ≠ 0 → (mkGF defaultField).inv x = mkGFAlt.inv x) ∧
    (mkGF defaultField).inv 0 ≠ mkGFAlt.inv 0 ∧
    gauss (mkGF defaultField) [[1, 2, 3], [3, 4, 5]] =
      gauss mkGFAlt [[1, 2, 3], [3, 4, 5]] ∧
    combine (mkGF defaultField) [[2, 7], [5, 9]] = combine mkGFAlt [[2, 7], [5, 9]] := by
  have hinv : ∀ x : Nat, x ≠ 0 → (mkGF defaultField).inv x = mkGFAlt.inv x := by
    intro x hx
    show gfInv defaultField x = if x = 0 then 7 else gfInv defaultField x
    rw [if_neg hx]
  refine ⟨hinv, by decide, ?_⟩
  exact claim8_inv_never_zero (mkGF defaultField) mkGFAlt rfl rfl hinv _ _

/-!  ### Generic control-flow facts -/

theorem gaussStep_error_singular [Zero K] [One K] [DecidableEq K] (f : GFOps K)
    {m : List (List K)} {r : Nat} {e : GoErr}
    (herr : gaussStep f m r = .error e) : e = .singular := by
  unfold gaussStep at herr
  by_cases hpz : gEl m r r = 0
  · simp only [hpz, if_pos, if_true] at herr
    by_cases hfn : findNonzero m r = -1
    · rw [if_pos hfn] at herr
      simp only [Except.error.injEq] at herr
      exact herr.symm
    · rw [if_neg hfn] at herr
      simp at herr
  · simp only [hpz, if_neg, if_false] at herr
    simp at herr

theorem gaussFwd_error_singular [Zero K] [One K] [DecidableEq K] (f : GFOps K) :
    ∀ steps r (m : List (List K)) (e : GoErr),
      gaussFwdAux f steps r m = .error e → e = .singular := by
  intro steps
  induction steps with
  | zero =>
    intro r m e h
    unfold gaussFwdAux at h
    simp at h
  | succ s ih =>
    intro r m e h
    unfold gaussFwdAux at h
    cases hstep : gaussStep f m r with
    | error e2 =>
      rw [hstep] at h
      simp only [Except.error.injEq] at h
      subst h
      exact gaussStep_error_singular f hstep
    | ok mm =>
      rw [hstep] at h
      exact ih (r + 1) mm e h

theorem gauss_error_singular [Zero K] [One K] [DecidableEq K] (f : GFOps K)
    {m : List (List K)} {e : GoErr} (h : gauss f m = .error e) : e = .singular := by
  unfold gauss at h
  cases hfwd : gaussFwdAux f m.length 0 m with
  | error e2 =>
    rw [hfwd] at h
    simp only [Except.error.injEq] at h
    subst h
    exact gaussFwd_error_singular f m.length 0 m e2 hfwd
  | ok T => rw [hfwd] at h; simp at h

theorem combineSingle_error_singular [Zero K] [One K] [DecidableEq K] (f : GFOps K)
    {xvals yvals : List K} {e : GoErr}
    (h : combineSingle f xvals yvals = .error e) : e = .singular := by
  rw [combineSingle_eq] at h
  cases hg : gauss f (vanMat f xvals yvals) with
  | error e2 =>
    rw [hg] at h
    simp only [Except.error.injEq] at h
    subst h
    exact gauss_error_singular f hg
  | ok m2 => rw [hg] at h; simp at h

theorem combineLoop_error_singular [Zero K] [One K] [DecidableEq K] (f : GFOps K)
    (shares : List (List K)) (xvals : List K) :
    ∀ cs e, combineLoop f shares xvals cs = .error e → e = .singular := by
  intro cs
  induction cs with
  | nil => intro e h; simp [combineLoop] at h
  | cons c cc ih =>
    intro e h
    unfold combineLoop at h
    cases hcs : combineSingle f xvals (shares.map fun s => s.getD c 0) with
    | error e2 =>
      rw [hcs] at h
      simp only [Except.error.injEq] at h
      subst h
      exact combineSingle_error_singular f hcs
    | ok sec =>
      rw [hcs] at h
      cases hcl : combineLoop f shares xvals cc with
      | error e2 =>
        rw [hcl] at h
        simp only [Except.error.injEq] at h
        subst h
        exact ih e2 hcl
      | ok rest => rw [hcl] at h; simp at h

/-- The only errors `combine` can return are the two length errors and the
singular-system error. -/
theorem combine_error_cases [Zero K] [One K] [DecidableEq K] (f : GFOps K)
    (shares : List (List K)) (e : GoErr) (h : combine f shares = .err e) :
    e = .nilShares ∨ e = .inconsistentLen ∨ e = .singular := by
  cases shares with
  | nil =>
    unfold combine at h
    simp only [GoResult.err.injEq] at h
    left
    exact h.symm
  | cons s0 rest =>
    rw [combine_cons] at h
    by_cases h1 : rest.any (fun s => s.length ≠ s0.length)
    · rw [if_pos h1] at h
      simp only [GoResult.err.injEq] at h
      right
      left
      exact h.symm
    · rw [if_neg h1] at h
      by_cases h2 : s0.length = 0
      · rw [if_pos h2] at h
        simp at h
      · rw [if_neg h2] at h
        cases hcl : combineLoop f (s0 :: rest) ((s0 :: rest).map fun s => s.getD 0 0)
            (List.range' 1 (s0.length - 1)) with
        | error e2 =>
          rw [hcl] at h
          simp only [GoResult.err.injEq] at h
          subst h
          right
          right
          exact combineLoop_error_singular f _ _ _ e2 hcl
        | ok secrets => rw [hcl] at h; simp at h

/-- If every share has the first share's length (and that length is
positive), `combine` cannot fail with a length error and cannot crash. -/
theorem combine_no_length_error [Zero K] [One K] [DecidableEq K] (f : GFOps K)
    (s0 : List K) (rest : List (List K))
    (hlen : ∀ s ∈ rest, s.length = s0.length) :
    (combine f (s0 :: rest) = .crashed → s0.length = 0) ∧
    ∀ e, combine f (s0 :: rest) = .err e → e = .singular := by
  have hany : ¬ (rest.any fun s => s.length ≠ s0.length) := by
    rw [List.any_eq_true]
    push_neg
    intro s hs
    simp [hlen s hs]
  constructor
  · intro h
    rw [combine_cons, if_neg hany] at h
    by_cases h2 : s0.length = 0
    · exact h2
    · rw [if_neg h2] at h
      cases hcl : combineLoop f (s0 :: rest) ((s0 :: rest).map fun s => s.getD 0 0)
          (List.range' 1 (s0.length - 1)) with
      | error e2 => rw [hcl] at h; simp at h
      | ok secrets => rw [hcl] at h; simp at h
  · intro e h
    rw [combine_cons, if_neg hany] at h
    by_cases h2 : s0.length = 0
    · rw [if_pos h2] at h
      cases h
    · rw [if_neg h2] at h
      cases hcl : combineLoop f (s0 :: rest) ((s0 :: rest).map fun s => s.getD 0 0)
          (List.range' 1 (s0.length - 1)) with
      | error e2 =>
        rw [hcl] at h
        simp only [GoResult.err.injEq] at h
        rw [← h]
        exact combineLoop_error_singular f _ _ _ e2 hcl
      | ok secrets => rw [hcl] at h; simp at h

/-!  ### Dealer-level equation lemmas -/

theorem dealerSplit_eq (d : Dealer) (t n : Int) (secret : List Nat) :
    Dealer.Split d t n secret =
      if secret.length % 2 ≠ 0 then (.err .oddSecret, d.init)
      else
        match split (mkGF d.init.F) (bytesToWords .le (d.init.Rand.getD []))
            t n (bytesToWords (d.init.ByteOrder.getD .be) secret) with
        | .error e => (.err e, d.init)
        | .ok shares =>
            (.ok (shares.map fun s => wordsToBytes (d.init.ByteOrder.getD .be) s),
              d.init) := rfl

theorem dealerCombine_nil (d : Dealer) :
    Dealer.Combine d [] = (.err .nilShares, d.init) := rfl

theorem dealerCombine_cons (d : Dealer) (s0 : List Nat) (rest : List (List Nat)) :
    Dealer.Combine d (s0 :: rest) =
      if (s0 :: rest).any (fun s => s.length < 2 * (s0.length / 2)) then
        (.err .decodeShort, d.init)
      else
        match combine (mkGF d.init.F)
            ((s0 :: rest).map fun s =>
              bytesToWords (d.init.ByteOrder.getD .be) (s.take (2 * (s0.length / 2)))) with
        | .ok ws => (.ok (wordsToBytes (d.init.ByteOrder.getD .be) ws), d.init)
        | .err e => (.err e, d.init)
        | .crashed => (.crashed, d.init) := rfl

theorem dealerSplit_snd (d : Dealer) (t n : Int) (secret : List Nat) :
    (Dealer.Split d t n secret).2 = d.init := by
  rw [dealerSplit_eq]
  by_cases h : secret.length % 2 ≠ 0
  · rw [if_pos h]
  · rw [if_neg h]
    cases split (mkGF d.init.F) (bytesToWords .le (d.init.Rand.getD []))
        t n (bytesToWords (d.init.ByteOrder.getD .be) secret) with
    | error e => rfl
    | ok shares => rfl

theorem dealerCombine_snd (d : Dealer) (shares : List (List Nat)) :
    (Dealer.Combine d shares).2 = d.init := by
  cases shares with
  | nil => rfl
  | cons s0 rest =>
    rw [dealerCombine_cons]
    by_cases h : (s0 :: rest).any (fun s => s.length < 2 * (s0.length / 2))
    · rw [if_pos h]
    · rw [if_neg h]
      cases combine (mkGF d.init.F) ((s0 :: rest).map fun s =>
          bytesToWords (d.init.ByteOrder.getD .be) (s.take (2 * (s0.length / 2)))) with
      | ok ws => rfl
      | err e => rfl
      | crashed => rfl

theorem dealer_init_id (d : Dealer) (hF : d.F ≠ 0) (hR : d.Rand ≠ none)
    (hB : d.ByteOrder ≠ none) : d.init = d := by
  obtain ⟨F, R, B⟩ := d
  cases R with
  | none => exact absurd rfl hR
  | some s =>
    cases B with
    | none => exact absurd rfl hB
    | some b =>
      show Dealer.mk (if F = 0 then defaultField else F) (some s) (some b)
        = Dealer.mk F (some s) (some b)
      rw [if_neg hF]

/-- Decoding a byte buffer yields one word per byte pair. -/
theorem bytesToWords_length (bo : BOrder) :
    ∀ l : List Nat, (bytesToWords bo l).length = l.length / 2
  | [] => by simp [bytesToWords]
  | [_] => by simp [bytesToWords]
  | b0 :: b1 :: rest => by
    show (wordOfBytes bo b0 b1 :: bytesToWords bo rest).length = (rest.length + 2) / 2
    rw [List.length_cons, bytesToWords_length bo rest]
    omega

/-- Two positions of a list holding the same value rule out `Nodup`. -/
theorem not_nodup_of_getD_eq {l : List α} (d : α) {i j : Nat} (hij : i < j)
    (hj : j < l.length) (h : l.getD i d = l.getD j d) : ¬ l.Nodup := by
  intro hnd
  have hi : i < l.length := lt_trans hij hj
  rw [getD_eq_getElem l i d hi, getD_eq_getElem l j d hj] at h
  have h2 : l.get ⟨i, hi⟩ = l.get ⟨j, hj⟩ := by
    simpa using h
  have h3 := (List.Nodup.get_inj_iff hnd).mp h2
  have h4 : i = j := congrArg Fin.val h3
  omega

/-- C3 (amended): for equal-length word shares with at least one data word,
a duplicated x-coordinate (first word) at two distinct positions makes
`combine` fail with the singular-system error. -/
theorem claim3_duplicate_x_singular {K : Type} [Field K] [DecidableEq K]
    (f : GFOps K)
    (hadd : f.add = fun a b => a + b) (hmul : f.mul = fun a b => a * b)
    (hinv : ∀ x : K, x ≠ 0 → f.inv x = x⁻¹) (hchar : ∀ x : K, x + x = 0)
    (s0 : List K) (rest : List (List K)) (i j : Nat)
    (hlen : ∀ s ∈ rest, s.length = s0.length)
    (hword : 2 ≤ s0.length)
    (hij : i < j) (hj : j < (s0 :: rest).length)
    (hx : gEl (s0 :: rest) i 0 = gEl (s0 :: rest) j 0) :
    combine f (s0 :: rest) = .err .singular := by
  rw [combine_ext f (fieldOps K) hadd hmul (fun x hx2 => hinv x hx2)]
  have hany : ¬ (rest.any fun s => s.length ≠ s0.length) := by
    rw [List.any_eq_true]
    push_neg
    intro s hs
    simp [hlen s hs]
  rw [combine_cons, if_neg hany, if_neg (by omega : ¬ s0.length = 0)]
  have hrange : List.range' 1 (s0.length - 1) = 1 :: List.range' 2 (s0.length - 2) := by
    have h1 : s0.length - 1 = (s0.length - 2) + 1 := by omega
    rw [h1, List.range'_succ]
  rw [hrange]
  have hi : i < (s0 :: rest).length := lt_trans hij hj
  have hgi : ((s0 :: rest).map fun s => s.getD 0 0).getD i 0 = gEl (s0 :: rest) i 0 :=
    getD_map_in (s0 :: rest) (fun s => s.getD 0 0) i 0 [] hi
  have hgj : ((s0 :: rest).map fun s => s.getD 0 0).getD j 0 = gEl (s0 :: rest) j 0 :=
    getD_map_in (s0 :: rest) (fun s => s.getD 0 0) j 0 [] hj
  have hdup : ¬ ((s0 :: rest).map fun s => s.getD 0 0).Nodup := by
    refine not_nodup_of_getD_eq 0 hij ?_ ?_
    · rw [List.length_map]
      exact hj
    · rw [hgi, hgj]
      exact hx
  have hylen : ((s0 :: rest).map fun s => s.getD 1 0).length
      = ((s0 :: rest).map fun s => s.getD 0 0).length := by
    rw [List.length_map, List.length_map]
  have hcs := combineSingle_dup hchar hylen hdup
  have hloop : combineLoop (fieldOps K) (s0 :: rest)
      ((s0 :: rest).map fun s => s.getD 0 0) (1 :: List.range' 2 (s0.length - 2))
      = .error .singular := by
    unfold combineLoop
    rw [hcs]
  rw [hloop]

/-- C3 (counterexample to the claim as stated): two equal-length one-word
shares with the same x-coordinate make `combine` return an empty secret
successfully instead of failing. -/
theorem claim3_counterexample :
    gEl ([[5], [5]] : List (List Nat)) 0 0 = gEl ([[5], [5]] : List (List Nat)) 1 0 ∧
    combine (mkGF defaultField) [[5], [5]] = .ok [] := by
  exact ⟨rfl, rfl⟩

theorem claim3_witness :
    combine gf2Ops [[1, 0], [1, 1]] = .err .singular := by
  have h := claim3_duplicate_x_singular gf2Ops rfl rfl
    (by
      intro x hx
      fin_cases x
      · exact absurd rfl hx
      · show (1 : ZMod 2) = 1⁻¹
        rw [inv_one])
    (by decide) [1, 0] [[1, 1]] 0 1
    (by
      intro s hs
      rw [List.mem_singleton] at hs
      rw [hs]
      rfl)
    (by decide) (by decide) (by decide) (by decide)
  exact h

/-- C6: splitting the secret words `0xb16b, 0x00b5` with threshold 3 of 3
under the fixed random byte stream reproduces the three known word shares;
combining all three returns the secret, while combining any two of them
fails to return the secret. -/
theorem claim6_concrete_scenario :
    split (mkGF defaultField)
        (bytesToWords .le [0xf0, 0xa7, 0x7a, 0x0e, 0x1e, 0x8a, 0x2e,
          0x36, 0xfb, 0x59, 0xbb, 0x84, 0x97, 0x65])
        3 3 [0xb16b, 0x00b5]
      = .ok [[0xa7f0, 0xc423, 0xe7ac], [0x0e7a, 0xdcbc, 0x4e6e],
          [0x8a1e, 0xd0da, 0x1523]] ∧
    combine (mkGF defaultField) [[0xa7f0, 0xc423, 0xe7ac], [0x0e7a, 0xdcbc, 0x4e6e],
        [0x8a1e, 0xd0da, 0x1523]] = .ok [0xb16b, 0x00b5] ∧
    combine (mkGF defaultField) [[0xa7f0, 0xc423, 0xe7ac], [0x0e7a, 0xdcbc, 0x4e6e]]
      ≠ .ok [0xb16b, 0x00b5] ∧
    combine (mkGF defaultField) [[0xa7f0, 0xc423, 0xe7ac], [0x8a1e, 0xd0da, 0x1523]]
      ≠ .ok [0xb16b, 0x00b5] ∧
    combine (mkGF defaultField) [[0x0e7a, 0xdcbc, 0x4e6e], [0x8a1e, 0xd0da, 0x1523]]
      ≠ .ok [0xb16b, 0x00b5] := by
  refine ⟨by decide, by decide, by decide, by decide, by decide⟩

/-- C9 (amended): `Split` and `Combine` leave the dealer exactly in the
state `init` produces from its prior value — already-set fields are kept,
unset ones are filled with the defaults — so a fully-configured dealer is
not changed at all. -/
theorem claim9_dealer_state (d : Dealer) (t n : Int) (secret : List Nat)
    (shares : List (List Nat)) :
    (Dealer.Split d t n secret).2 = d.init ∧
    (Dealer.Combine d shares).2 = d.init ∧
    (d.F ≠ 0 → d.Rand ≠ none → d.ByteOrder ≠ none → d.init = d) :=
  ⟨dealerSplit_snd d t n secret, dealerCombine_snd d shares,
    fun hF hR hB => dealer_init_id d hF hR hB⟩

/-- C9 (counterexample to the claim as stated): calling `Split` on a
zero-valued dealer changes all three configuration fields. -/
theorem claim9_counterexample :
    (Dealer.Split ⟨0, none, none⟩ 1 1 [1, 2]).2 ≠ ⟨0, none, none⟩ := by
  decide

theorem claim9_witness :
    (Dealer.Split ⟨3, some [], some .be⟩ 1 1 [7, 7]).2 = Dealer.init ⟨3, some [], some .be⟩ ∧
    (Dealer.Combine ⟨3, some [], some .be⟩ [[5, 5]]).2 = Dealer.init ⟨3, some [], some .be⟩ ∧
    Dealer.init ⟨3, some [], some .be⟩ = ⟨3, some [], some .be⟩ := by
  have h := claim9_dealer_state ⟨3, some [], some .be⟩ 1 1 [7, 7] [[5, 5]]
  exact ⟨h.1, h.2.1, h.2.2 (by decide) (by decide) (by decide)⟩

/-- C10: `Dealer.Combine` on the non-empty share list `[[0x01]]` reaches the
`make([]uint16, -1)` crash instead of returning a secret or an error. -/
theorem claim10_combine_crash :
    (Dealer.Combine ⟨0, none, none⟩ [[1]]).1 = .crashed := by
  decide

/-!  ### Validation behaviour of `split` and `Dealer.Split` -/

theorem split_val_tGtN [Zero K] [One K] [DecidableEq K] (f : GFOps K) (stream : List K)
    {t n : Int} (secret : List K) (h : t > n) :
    split f stream t n secret = .error .thresholdGtN := by
  unfold split
  rw [if_pos h]

theorem split_val_tLt1 [Zero K] [One K] [DecidableEq K] (f : GFOps K) (stream : List K)
    {t n : Int} (secret : List K) (h1 : ¬ t > n) (h : t < 1) :
    split f stream t n secret = .error .thresholdLt1 := by
  unfold split
  rw [if_neg h1, if_pos h]

theorem split_val_nLt1 [Zero K] [One K] [DecidableEq K] (f : GFOps K) (stream : List K)
    {t n : Int} (secret : List K) (h1 : ¬ t > n) (h2 : ¬ t < 1) (h : n < 1) :
    split f stream t n secret = .error .nLt1 := by
  unfold split
  rw [if_neg h1, if_neg h2, if_pos h]

theorem split_val_nilSecret [Zero K] [One K] [DecidableEq K] (f : GFOps K) (stream : List K)
    {t n : Int} (secret : List K) (h1 : ¬ t > n) (h2 : ¬ t < 1) (h3 : ¬ n < 1)
    (h : secret.length = 0) :
    split f stream t n secret = .error .nilSecret := by
  unfold split
  rw [if_neg h1, if_neg h2, if_neg h3, if_pos h]

theorem split_not_val [Zero K] [One K] [DecidableEq K] (f : GFOps K) (stream : List K)
    {t n : Int} (secret : List K) (h1 : ¬ t > n) (h2 : ¬ t < 1) (h3 : ¬ n < 1)
    (h4 : ¬ secret.length = 0) :
    split f stream t n secret = .error .randErr ∨
      ∃ sh, split f stream t n secret = .ok sh := by
  unfold split
  rw [if_neg h1, if_neg h2, if_neg h3, if_neg h4]
  cases distinctXes stream n.toNat with
  | none => left; rfl
  | some xr =>
    obtain ⟨xv, rest⟩ := xr
    cases hsl : splitLoop f t.toNat xv secret rest with
    | none => left; simp only [hsl]
    | some zs => right; exact ⟨assembleShares xv zs, by simp only [hsl]⟩

theorem dealerSplit_no_val (d : Dealer) (t n : Int) (secret : List Nat)
    (h0 : secret.length % 2 = 0) (h1 : ¬ t > n) (h2 : ¬ t < 1) (h3 : ¬ n < 1)
    (h4 : secret.length ≠ 0) :
    (Dealer.Split d t n secret).1 = .err .randErr ∨
      ∃ sh, (Dealer.Split d t n secret).1 = .ok sh := by
  rw [dealerSplit_eq, if_neg (fun hh => hh h0)]
  have h5 : ¬ (bytesToWords (d.init.ByteOrder.getD .be) secret).length = 0 := by
    rw [bytesToWords_length]
    omega
  rcases split_not_val (mkGF d.init.F) (bytesToWords .le (d.init.Rand.getD []))
      (bytesToWords (d.init.ByteOrder.getD .be) secret) h1 h2 h3 h5 with hr | ⟨sh, hr⟩
  · rw [hr]
    left
    rfl
  · rw [hr]
    right
    exact ⟨_, rfl⟩

/-- C4: `Split` fails with a parameter-validation error exactly when the
threshold or share count is out of range or the secret's byte length is odd
or zero; and under any of those conditions the outcome is the same for
every dealer configuration — so it is decided before the random stream or
the field is touched. -/
theorem claim4_split_validation (d : Dealer) (t n : Int) (secret : List Nat) :
    ((∃ e, valErr e ∧ (Dealer.Split d t n secret).1 = .err e) ↔
      (t < 1 ∨ n < 1 ∨ t > n ∨ secret.length % 2 = 1 ∨ secret.length = 0)) ∧
    ((t < 1 ∨ n < 1 ∨ t > n ∨ secret.length % 2 = 1 ∨ secret.length = 0) →
      ∀ d2 : Dealer, (Dealer.Split d2 t n secret).1 = (Dealer.Split d t n secret).1) := by
  have hval : (t < 1 ∨ n < 1 ∨ t > n ∨ secret.length % 2 = 1 ∨ secret.length = 0) →
      ∃ e, valErr e ∧ ∀ d3 : Dealer, (Dealer.Split d3 t n secret).1 = .err e := by
    intro hc
    by_cases h0 : secret.length % 2 = 0
    · by_cases htn : t > n
      · refine ⟨.thresholdGtN, Or.inl rfl, fun d3 => ?_⟩
        rw [dealerSplit_eq, if_neg (fun hh => hh h0), split_val_tGtN _ _ _ htn]
      · by_cases ht1 : t < 1
        · refine ⟨.thresholdLt1, Or.inr (Or.inl rfl), fun d3 => ?_⟩
          rw [dealerSplit_eq, if_neg (fun hh => hh h0), split_val_tLt1 _ _ _ htn ht1]
        · by_cases hn1 : n < 1
          · refine ⟨.nLt1, Or.inr (Or.inr (Or.inl rfl)), fun d3 => ?_⟩
            rw [dealerSplit_eq, if_neg (fun hh => hh h0), split_val_nLt1 _ _ _ htn ht1 hn1]
          · have h5 : secret.length = 0 := by
              rcases hc with hc | hc | hc | hc | hc
              · exact absurd hc ht1
              · exact absurd hc hn1
              · exact absurd hc htn
              · omega
              · exact hc
            refine ⟨.nilSecret, Or.inr (Or.inr (Or.inr (Or.inl rfl))), fun d3 => ?_⟩
            rw [dealerSplit_eq, if_neg (fun hh => hh h0),
              split_val_nilSecret _ _ _ htn ht1 hn1 (by rw [bytesToWords_length]; omega)]
    · refine ⟨.oddSecret, Or.inr (Or.inr (Or.inr (Or.inr rfl))), fun d3 => ?_⟩
      rw [dealerSplit_eq, if_pos h0]
  constructor
  · constructor
    · rintro ⟨e, hve, he⟩
      by_contra hnc
      push_neg at hnc
      obtain ⟨hc1, hc2, hc3, hc4, hc5⟩ := hnc
      have h0 : secret.length % 2 = 0 := by omega
      rcases dealerSplit_no_val d t n secret h0 (by omega) (by omega) (by omega) hc5
        with hr | ⟨sh, hr⟩
      · rw [hr] at he
        have he2 : GoErr.randErr = e := by
          simpa using he
        subst he2
        rcases hve with h | h | h | h | h <;> simp at h
      · rw [hr] at he
        simp at he
    · intro hc
      obtain ⟨e, hve, he⟩ := hval hc
      exact ⟨e, hve, he d⟩
  · intro hc d2
    obtain ⟨e, hve, he⟩ := hval hc
    rw [he d2, he d]

/-- C5 (amended): `Combine` rejects an empty share list, and rejects a
share list in which some share is shorter than the first share's even
length prefix; when all shares have the first share's length, the only
error it can still return is the singular-system error — never a length
error. -/
theorem claim5_combine_length_validation (d : Dealer) (s0 : List Nat)
    (rest : List (List Nat)) :
    (Dealer.Combine d []).1 = .err .nilShares ∧
    ((∃ s ∈ s0 :: rest, s.length < 2 * (s0.length / 2)) →
      (Dealer.Combine d (s0 :: rest)).1 = .err .decodeShort) ∧
    ((∀ s ∈ s0 :: rest, s.length = s0.length) →
      ∀ e, (Dealer.Combine d (s0 :: rest)).1 = .err e → e = .singular) := by
  refine ⟨rfl, ?_, ?_⟩
  · rintro ⟨s, hs, hlt⟩
    have hany : (s0 :: rest).any (fun s => s.length < 2 * (s0.length / 2)) = true := by
      rw [List.any_eq_true]
      exact ⟨s, hs, by simpa using hlt⟩
    rw [dealerCombine_cons, if_pos hany]
  · intro hlen e he
    rw [dealerCombine_cons] at he
    have hany : ¬ ((s0 :: rest).any fun s => s.length < 2 * (s0.length / 2)) = true := by
      intro hcon
      rw [List.any_eq_true] at hcon
      obtain ⟨s, hs, hp⟩ := hcon
      have hlt : s.length < 2 * (s0.length / 2) := by simpa using hp
      have := hlen s hs
      omega
    rw [if_neg hany, List.map_cons] at he
    have hlen2 : ∀ sw ∈ rest.map fun s =>
        bytesToWords (d.init.ByteOrder.getD .be) (s.take (2 * (s0.length / 2))), sw.length
        = (bytesToWords (d.init.ByteOrder.getD .be) (s0.take (2 * (s0.length / 2)))).length := by
      intro sw hsw
      rw [List.mem_map] at hsw
      obtain ⟨s, hs, hmap⟩ := hsw
      rw [← hmap, bytesToWords_length, bytesToWords_length, List.length_take,
        List.length_take]
      have := hlen s (List.mem_cons_of_mem s0 hs)
      omega
    cases hc : combine (mkGF d.init.F)
        ((bytesToWords (d.init.ByteOrder.getD .be) (s0.take (2 * (s0.length / 2)))) ::
          rest.map fun s => bytesToWords (d.init.ByteOrder.getD .be)
            (s.take (2 * (s0.length / 2)))) with
    | ok ws2 =>
      rw [hc] at he
      simp at he
    | err e2 =>
      rw [hc] at he
      have he2 : e2 = e := by simpa using he
      subst he2
      exact (combine_no_length_error (mkGF d.init.F) _ _ hlen2).2 e2 hc
    | crashed =>
      rw [hc] at he
      simp at he

/-- C5 (counterexample to the claim as stated): two shares of different
byte lengths for which `Combine` succeeds, because the longer share is
silently truncated to the first share's length before decoding. -/
theorem claim5_counterexample :
    ([0, 1, 0, 5] : List Nat).length ≠ ([0, 2, 0, 7, 9, 9] : List Nat).length ∧
    (Dealer.Combine ⟨0, none, none⟩ [[0, 1, 0, 5], [0, 2, 0, 7, 9, 9]]).1
      = .ok [255, 226] := by
  exact ⟨by decide, by decide⟩

/-!  ### Permutation invariance of word-level `combine` -/

/-- A polynomial of degree below `xvals.length` through all the points of
`xvals.zip yvals` (Lagrange interpolation). -/
theorem lagrange_through [Field K] [DecidableEq K] (xvals yvals : List K)
    (hly : yvals.length = xvals.length) (hnd : xvals.Nodup) :
    ∃ p : Polynomial K, p.degree < (xvals.length : WithBot Nat) ∧
      ∀ x y, (x, y) ∈ xvals.zip yvals → p.eval x = y := by
  have hvs : Set.InjOn (fun j : Fin xvals.length => xvals.get j)
      ↑(Finset.univ : Finset (Fin xvals.length)) := by
    intro a _ b _ hab
    exact (List.Nodup.get_inj_iff hnd).mp hab
  refine ⟨Lagrange.interpolate Finset.univ (fun j : Fin xvals.length => xvals.get j)
    (fun j : Fin xvals.length => yvals.get ⟨j.1, by rw [hly]; exact j.2⟩), ?_, ?_⟩
  · have h1 := Lagrange.degree_interpolate_lt
      (fun j : Fin xvals.length => yvals.get ⟨j.1, by rw [hly]; exact j.2⟩) hvs
    rwa [Finset.card_univ, Fintype.card_fin] at h1
  · intro x y hxy
    obtain ⟨j, hget⟩ := List.mem_iff_get.mp hxy
    have hjx : j.1 < xvals.length := by
      have h2 : (xvals.zip yvals).length ≤ xvals.length := by
        rw [List.length_zip]
        omega
      have h3 := j.2
      omega
    rw [List.get_eq_getElem, List.getElem_zip, Prod.mk.injEq] at hget
    obtain ⟨hx, hy⟩ := hget
    rw [← hx, ← hy]
    have h2 := Lagrange.eval_interpolate_at_node
      (fun j : Fin xvals.length => yvals.get ⟨j.1, by rw [hly]; exact j.2⟩) hvs
      (Finset.mem_univ (⟨j.1, hjx⟩ : Fin xvals.length))
    simpa using h2

/-- `combineSingle` depends on its point list only up to permutation. -/
theorem combineSingle_perm [Field K] [DecidableEq K] (hc : ∀ x : K, x + x = 0)
    {xvals yvals xvals2 yvals2 : List K}
    (hzip : (xvals2.zip yvals2).Perm (xvals.zip yvals))
    (hpx : xvals2.Perm xvals)
    (hly : yvals.length = xvals.length) (hly2 : yvals2.length = xvals2.length) :
    combineSingle (fieldOps K) xvals2 yvals2 = combineSingle (fieldOps K) xvals yvals := by
  by_cases hnd : xvals.Nodup
  · have hnd2 : xvals2.Nodup := hpx.nodup_iff.mpr hnd
    rcases Nat.eq_zero_or_pos xvals.length with hk0 | hk
    · have hx0 : xvals = [] := List.length_eq_zero.mp hk0
      have hy0 : yvals = [] := List.length_eq_zero.mp (by rw [hly, hk0])
      have hx20 : xvals2 = [] := List.length_eq_zero.mp (by rw [hpx.length_eq, hk0])
      have hy20 : yvals2 = [] := List.length_eq_zero.mp (by
        rw [hly2, hpx.length_eq, hk0])
      rw [hx0, hy0, hx20, hy20]
    · obtain ⟨p, hdeg, hev⟩ := lagrange_through xvals yvals hly hnd
      have hmemz : ∀ (l1 l2 : List K), l2.length = l1.length →
          ∀ i, i < l1.length → (l1.getD i 0, l2.getD i 0) ∈ l1.zip l2 := by
        intro l1 l2 hll i hi
        have hzl : i < (l1.zip l2).length := by
          rw [List.length_zip]
          omega
        have hm := List.getElem_mem hzl
        rw [List.getElem_zip] at hm
        rwa [getD_eq_getElem l1 i 0 hi, getD_eq_getElem l2 i 0 (by omega)]
      have heval1 : ∀ i, i < xvals.length → p.eval (xvals.getD i 0) = yvals.getD i 0 :=
        fun i hi => hev _ _ (hmemz xvals yvals hly i hi)
      have heval2 : ∀ i, i < xvals2.length → p.eval (xvals2.getD i 0) = yvals2.getD i 0 :=
        fun i hi => hev _ _ (hzip.subset (hmemz xvals2 yvals2 hly2 i hi))
      have hk2 : 1 ≤ xvals2.length := by
        rw [hpx.length_eq]
        exact hk
      have hdeg2 : p.degree < (xvals2.length : WithBot Nat) := by
        rw [hpx.length_eq]
        exact hdeg
      rw [combineSingle_interp hc hly hk hnd p hdeg heval1,
        combineSingle_interp hc hly2 hk2 hnd2 p hdeg2 heval2]
  · have hnd2 : ¬ xvals2.Nodup := fun h => hnd (hpx.nodup_iff.mp h)
    rw [combineSingle_dup hc hly hnd, combineSingle_dup hc hly2 hnd2]

/-- The per-column loop of `combine` is invariant under permuting the
share list (the x-column is permuted along with it). -/
theorem combineLoop_perm [Field K] [DecidableEq K] (hc : ∀ x : K, x + x = 0)
    {shares shares2 : List (List K)} (hperm : shares2.Perm shares) :
    ∀ cs, combineLoop (fieldOps K) shares2 (shares2.map fun s => s.getD 0 0) cs
        = combineLoop (fieldOps K) shares (shares.map fun s => s.getD 0 0) cs := by
  intro cs
  induction cs with
  | nil => rfl
  | cons c cc ih =>
    unfold combineLoop
    have hsingle : combineSingle (fieldOps K) (shares2.map fun s => s.getD 0 0)
        (shares2.map fun s => s.getD c 0)
        = combineSingle (fieldOps K) (shares.map fun s => s.getD 0 0)
          (shares.map fun s => s.getD c 0) := by
      apply combineSingle_perm hc
      · rw [List.zip_map', List.zip_map']
        exact hperm.map _
      · exact hperm.map _
      · rw [List.length_map, List.length_map]
      · rw [List.length_map, List.length_map]
    rw [hsingle, ih]

/-- C7 (amended): at the word level, `combine` applied to any permutation
of a share list returns the same outcome as on the original list — the
same secret on success and the same error on failure. -/
theorem claim7_combine_perm {K : Type} [Field K] [DecidableEq K] (f : GFOps K)
    (hadd : f.add = fun a b => a + b) (hmul : f.mul = fun a b => a * b)
    (hinv : ∀ x : K, x ≠ 0 → f.inv x = x⁻¹) (hchar : ∀ x : K, x + x = 0)
    (shares shares2 : List (List K)) (hperm : shares2.Perm shares) :
    combine f shares2 = combine f shares := by
  rw [combine_ext f (fieldOps K) hadd hmul hinv shares2,
    combine_ext f (fieldOps K) hadd hmul hinv shares]
  rcases shares with _ | ⟨s0, rest⟩
  · rw [List.perm_nil.mp hperm]
  · rcases shares2 with _ | ⟨s0b, restb⟩
    · have h2 := List.perm_nil.mp hperm.symm
      simp at h2
    · by_cases hP : ∀ s ∈ s0 :: rest, s.length = s0.length
      · have hall2 : ∀ s ∈ s0b :: restb, s.length = s0.length :=
          fun s hs => hP s (hperm.subset hs)
        have hL : s0b.length = s0.length := hall2 s0b (List.mem_cons_self s0b restb)
        have hany : ¬ (rest.any fun s => s.length ≠ s0.length) = true := by
          rw [List.any_eq_true]
          rintro ⟨s, hs, hp⟩
          simp only [decide_eq_true_eq] at hp
          exact hp (hP s (List.mem_cons_of_mem s0 hs))
        have hany2 : ¬ (restb.any fun s => s.length ≠ s0b.length) = true := by
          rw [List.any_eq_true]
          rintro ⟨s, hs, hp⟩
          simp only [decide_eq_true_eq] at hp
          exact hp (by rw [hall2 s (List.mem_cons_of_mem s0b hs), hL])
        rw [combine_cons, combine_cons, if_neg hany2, if_neg hany]
        by_cases hz : s0.length = 0
        · rw [if_pos (show s0b.length = 0 by rw [hL]; exact hz), if_pos hz]
        · rw [if_neg (show ¬ s0b.length = 0 from fun hh => hz (by rw [← hL]; exact hh)),
            if_neg hz, hL]
          rw [combineLoop_perm hchar hperm (List.range' 1 (s0.length - 1))]
      · have hany : (rest.any fun s => s.length ≠ s0.length) = true := by
          rw [List.any_eq_true]
          push_neg at hP
          obtain ⟨s, hs, hne⟩ := hP
          rcases List.mem_cons.mp hs with he | hm
          · exact absurd (congrArg List.length he) hne
          · exact ⟨s, hm, by simp only [decide_eq_true_eq]; exact hne⟩
        have hany2 : (restb.any fun s => s.length ≠ s0b.length) = true := by
          by_contra hcon
          have hall2 : ∀ s ∈ s0b :: restb, s.length = s0b.length := by
            intro s hs
            rcases List.mem_cons.mp hs with he | hm
            · rw [he]
            · by_contra hne
              apply hcon
              rw [List.any_eq_true]
              exact ⟨s, hm, by simp only [decide_eq_true_eq]; exact hne⟩
          have hall : ∀ s ∈ s0 :: rest, s.length = s0b.length :=
            fun s hs => hall2 s (hperm.mem_iff.mpr hs)
          have hs0 : s0.length = s0b.length := hall s0 (List.mem_cons_self s0 rest)
          exact hP (fun s hs => by rw [hall s hs, hs0])
        rw [combine_cons, combine_cons, if_pos hany2, if_pos hany]

/-- C7 (counterexample to the claim as stated): at the byte level,
`Dealer.Combine` is order-dependent — swapping two shares of different
lengths turns a successful call into a decode failure, because decoding
truncates every share to the first share's length. -/
theorem claim7_counterexample :
    ([[0, 2, 0, 7, 9, 9], [0, 1, 0, 5]] : List (List Nat)).Perm
      [[0, 1, 0, 5], [0, 2, 0, 7, 9, 9]] ∧
    (Dealer.Combine ⟨0, none, none⟩ [[0, 1, 0, 5], [0, 2, 0, 7, 9, 9]]).1
      = .ok [255, 226] ∧
    (Dealer.Combine ⟨0, none, none⟩ [[0, 2, 0, 7, 9, 9], [0, 1, 0, 5]]).1
      = .err .decodeShort := by
  exact ⟨List.Perm.swap [0, 1, 0, 5] [0, 2, 0, 7, 9, 9] [], by decide, by decide⟩

/-- The GF(2) capability's inverse agrees with the field inverse away from 0. -/
theorem gf2Ops_inv_eq : ∀ x : ZMod 2, x ≠ 0 → gf2Ops.inv x = x⁻¹ := by
  intro x hx
  fin_cases x
  · exact absurd rfl hx
  · show (1 : ZMod 2) = 1⁻¹
    rw [inv_one]

theorem claim7_witness :
    combine gf2Ops [[1, 1], [0, 1]] = combine gf2Ops [[0, 1], [1, 1]] :=
  claim7_combine_perm gf2Ops rfl rfl gf2Ops_inv_eq (by decide)
    [[0, 1], [1, 1]] [[1, 1], [0, 1]] (List.Perm.swap [0, 1] [1, 1] [])
